import Mathlib

/-!
Verification of the SmartSpend data-integrity core: a shallow embedding of
the CSV codec (src/services/csv.ts) and of the reconciliation / aggregation
functions (src/services/logic.ts), with theorems settling the spec's claims
about them.  Strings are lists of characters; JavaScript numbers are modelled
by `JSNum` (exact rationals for finite values, plus the two infinities and
NaN); double-precision rounding and overflow are not modelled.
-/

namespace SmartSpend

/-- JavaScript number values as the code observes them: a finite value
(modelled exactly as a rational), the two infinities, and NaN. -/
inductive JSNum where
  | num : ℚ → JSNum
  | posInf : JSNum
  | negInf : JSNum
  | nan : JSNum
deriving DecidableEq

/-- One expense record (src/types.ts, interface Expense). -/
structure Expense where
  id : List Char
  amount : JSNum
  date : List Char
  category : List Char
  description : List Char
  tags : List (List Char)
deriving DecidableEq

/-- The whitespace characters String.prototype.trim removes (ASCII range). -/
def isSpaceChar (c : Char) : Bool :=
  c = ' ' || c = '\t' || c = '\n' || c = '\r' || c = '\x0b' || c = '\x0c'

/-- String.prototype.trim: drop leading and trailing whitespace. -/
def trim (s : List Char) : List Char :=
  ((s.dropWhile isSpaceChar).reverse.dropWhile isSpaceChar).reverse

/-- Prepend a character to the first piece of a split (helper for the
character scanners below). -/
def consHead (c : Char) : List (List Char) → List (List Char)
  | [] => [[c]]
  | h :: t => (c :: h) :: t

/-- String.prototype.split on the regular expression matching an optional CR
followed by LF: LF, or CR LF, separates lines; a CR alone is content. -/
def splitLines : List Char → List (List Char)
  | [] => [[]]
  | '\n' :: rest => [] :: splitLines rest
  | '\r' :: '\n' :: rest => [] :: splitLines rest
  | c :: rest => consHead c (splitLines rest)

/-- String.prototype.split with a one-character separator. -/
def splitSep (sep : Char) : List Char → List (List Char)
  | [] => [[]]
  | c :: rest =>
    if c = sep then [] :: splitSep sep rest
    else consHead c (splitSep sep rest)

/-- Array.prototype.join with a one-character separator. -/
def joinSep (sep : Char) : List (List Char) → List Char
  | [] => []
  | [x] => x
  | x :: y :: rest => x ++ sep :: joinSep sep (y :: rest)

/-- The field scanner of importExpenses: walk the line, toggling the
inQuotes flag on a double quote (the quote itself is never appended),
splitting on a comma only when the flag is off, and appending every other
character to the current field. -/
def scanFields (inQuotes : Bool) : List Char → List (List Char)
  | [] => [[]]
  | c :: rest =>
    if c = '"' then scanFields (!inQuotes) rest
    else if c = ',' ∧ inQuotes = false then [] :: scanFields false rest
    else consHead c (scanFields inQuotes rest)

/-- The quote-aware split importExpenses applies to each data line. -/
def splitCSVLine (line : List Char) : List (List Char) :=
  scanFields false line

/-- Numeric value of one decimal digit character. -/
def digitVal (c : Char) : Nat := c.toNat - '0'.toNat

/-- Numeric value of a run of decimal digit characters. -/
def digitsVal (ds : List Char) : Nat :=
  ds.foldl (fun acc c => 10 * acc + digitVal c) 0

/-- The exponent part of a decimal literal: optional sign then at least one
digit; contributes 0 when the digits are missing (the exponent marker is then
not part of the longest match). -/
def expVal (r : List Char) : Int :=
  match r with
  | '-' :: t =>
    let ds := t.takeWhile Char.isDigit
    if ds = [] then 0 else -(digitsVal ds : Int)
  | '+' :: t =>
    let ds := t.takeWhile Char.isDigit
    if ds = [] then 0 else (digitsVal ds : Int)
  | _ =>
    let ds := r.takeWhile Char.isDigit
    if ds = [] then 0 else (digitsVal ds : Int)

/-- ECMAScript parseFloat: skip leading whitespace, read an optional sign,
then either the literal Infinity or the longest prefix shaped
digits [. digits] [exponent] or . digits [exponent]; NaN when no such prefix
exists.  Finite values are exact rationals. -/
def parseFloat (s : List Char) : JSNum :=
  let s1 := s.dropWhile isSpaceChar
  match s1 with
  | '-' :: r => parseFloatBody true r
  | '+' :: r => parseFloatBody false r
  | _ => parseFloatBody false s1
where
  /-- The unsigned part of the literal. -/
  parseFloatBody (neg : Bool) (s2 : List Char) : JSNum :=
    if ("Infinity".toList).isPrefixOf s2 then
      if neg then .negInf else .posInf
    else
      let ip := s2.takeWhile Char.isDigit
      let s3 := s2.dropWhile Char.isDigit
      let fp : List Char :=
        match s3 with
        | '.' :: r => r.takeWhile Char.isDigit
        | _ => []
      let s4 : List Char :=
        match s3 with
        | '.' :: r => r.dropWhile Char.isDigit
        | _ => s3
      if ip = [] ∧ fp = [] then .nan
      else
        let ex : Int :=
          match s4 with
          | 'e' :: r => expVal r
          | 'E' :: r => expVal r
          | _ => 0
        let mant : ℚ := (digitsVal ip : ℚ) + (digitsVal fp : ℚ) / ((10 : ℚ) ^ fp.length)
        let v : ℚ := mant * (10 : ℚ) ^ ex
        .num (if neg then -v else v)

/-- JavaScript strict less-than: every comparison with NaN is false. -/
def jlt : JSNum → JSNum → Bool
  | .nan, _ => false
  | _, .nan => false
  | .num a, .num b => decide (a < b)
  | .num _, .posInf => true
  | .num _, .negInf => false
  | .posInf, _ => false
  | .negInf, .negInf => false
  | .negInf, _ => true

/-- JavaScript strict greater-than. -/
def jgt (a b : JSNum) : Bool := jlt b a

/-- JavaScript less-than-or-equal: false when either side is NaN. -/
def jle : JSNum → JSNum → Bool
  | .nan, _ => false
  | _, .nan => false
  | a, b => !(jlt b a)

/-- JavaScript greater-than-or-equal. -/
def jge (a b : JSNum) : Bool := jle b a

/-- JavaScript addition on number values. -/
def jadd : JSNum → JSNum → JSNum
  | .nan, _ => .nan
  | _, .nan => .nan
  | .num a, .num b => .num (a + b)
  | .num _, .posInf => .posInf
  | .num _, .negInf => .negInf
  | .posInf, .posInf => .posInf
  | .posInf, .negInf => .nan
  | .posInf, .num _ => .posInf
  | .negInf, .negInf => .negInf
  | .negInf, .posInf => .nan
  | .negInf, .num _ => .negInf

/-- JavaScript multiplication on number values. -/
def jmul : JSNum → JSNum → JSNum
  | .nan, _ => .nan
  | _, .nan => .nan
  | .num a, .num b => .num (a * b)
  | .num a, .posInf => if a = 0 then .nan else if 0 < a then .posInf else .negInf
  | .num a, .negInf => if a = 0 then .nan else if 0 < a then .negInf else .posInf
  | .posInf, .num b => if b = 0 then .nan else if 0 < b then .posInf else .negInf
  | .negInf, .num b => if b = 0 then .nan else if 0 < b then .negInf else .posInf
  | .posInf, .posInf => .posInf
  | .posInf, .negInf => .negInf
  | .negInf, .posInf => .negInf
  | .negInf, .negInf => .posInf

/-- JavaScript division on number values (the sign of zero is not modelled:
a negative zero result is collapsed to zero). -/
def jdiv : JSNum → JSNum → JSNum
  | .nan, _ => .nan
  | _, .nan => .nan
  | .num a, .num b =>
    if b = 0 then (if a = 0 then .nan else if 0 < a then .posInf else .negInf)
    else .num (a / b)
  | .num _, .posInf => .num 0
  | .num _, .negInf => .num 0
  | .posInf, .num b => if 0 ≤ b then .posInf else .negInf
  | .negInf, .num b => if 0 ≤ b then .negInf else .posInf
  | .posInf, _ => .nan
  | .negInf, _ => .nan

/-- Math.min of two values: NaN when either argument is NaN. -/
def jmin (a b : JSNum) : JSNum :=
  if a = .nan ∨ b = .nan then .nan
  else if jlt b a then b else a

/-- Sum of the amounts dated exactly dateStr: the reduce over the filter in
calculateDailyStats. -/
def dailySpend (expenses : List Expense) (dateStr : List Char) : JSNum :=
  (expenses.filter (fun e => decide (e.date = dateStr))).foldl
    (fun s e => jadd s e.amount) (.num 0)

/-- The raw limit percentage of calculateDailyStats, before the display cap:
zero unless the limit is strictly positive. -/
def rawLimitPercentage (expenses : List Expense) (dateStr : List Char)
    (dailyLimit : JSNum) : JSNum :=
  if jgt dailyLimit (.num 0) then
    jmul (jdiv (dailySpend expenses dateStr) dailyLimit) (.num 100)
  else .num 0

/-- The record calculateDailyStats returns. -/
structure DailyStats where
  todaySpend : JSNum
  isOverLimit : Bool
  isNearLimit : Bool
  limitPercentage : JSNum
deriving DecidableEq

/-- calculateDailyStats of src/services/logic.ts. -/
def calculateDailyStats (expenses : List Expense) (dateStr : List Char)
    (dailyLimit : JSNum) : DailyStats :=
  { todaySpend := dailySpend expenses dateStr
    isOverLimit := jgt (dailySpend expenses dateStr) dailyLimit
    isNearLimit := jle (dailySpend expenses dateStr) dailyLimit
      && jge (rawLimitPercentage expenses dateStr dailyLimit) (.num 80)
    limitPercentage := jmin (rawLimitPercentage expenses dateStr dailyLimit) (.num 100) }

/-- Map.prototype.set on an insertion-ordered association list keyed by id:
replace in place when the key is present, append otherwise. -/
def mapSet (m : List Expense) (e : Expense) : List Expense :=
  if m.any (fun x => decide (x.id = e.id)) then
    m.map (fun x => if x.id = e.id then e else x)
  else m ++ [e]

/-- The counters mergeExpenses returns. -/
structure MergeStats where
  added : Nat
  updated : Nat
  skipped : Nat
deriving DecidableEq

/-- One iteration of the incoming loop of mergeExpenses: bump updated when
the id is already present, added otherwise, then set the record either way. -/
def mergeStep (acc : List Expense × Nat × Nat) (inc : Expense) :
    List Expense × Nat × Nat :=
  if acc.1.any (fun x => decide (x.id = inc.id)) then
    (mapSet acc.1 inc, acc.2.1, acc.2.2 + 1)
  else
    (mapSet acc.1 inc, acc.2.1 + 1, acc.2.2)

/-- mergeExpenses of src/services/logic.ts: seed a map from current, fold
every incoming record through mergeStep, return the values in insertion
order plus the counters (skipped is always the constant 0). -/
def mergeExpenses (current incoming : List Expense) : List Expense × MergeStats :=
  let seeded := current.foldl mapSet []
  let r := incoming.foldl mergeStep (seeded, 0, 0)
  (r.1, ⟨r.2.1, r.2.2, 0⟩)

/-- Map.prototype.get on the id-keyed association list: the first (hence,
the list never holding two records of one id, the only) record with the
key. -/
def mapGet (m : List Expense) (k : List Char) : Option Expense :=
  m.find? (fun x => decide (x.id = k))

/-- Specification-side counting, following the claim's words: process each
incoming record in order against the set of ids already present (seeded
from current); a record whose id is present counts one update, otherwise it
counts one add and its id becomes present.  The pair is (added, updated). -/
def mergeCountsSpec (present : List (List Char)) : List Expense → Nat × Nat
  | [] => (0, 0)
  | inc :: rest =>
    if inc.id ∈ present then
      ((mergeCountsSpec present rest).1, (mergeCountsSpec present rest).2 + 1)
    else
      ((mergeCountsSpec (inc.id :: present) rest).1 + 1,
        (mergeCountsSpec (inc.id :: present) rest).2)

/-- String.prototype.replace of every double quote by two double quotes. -/
def escapeQuotes : List Char → List Char
  | [] => []
  | '"' :: rest => '"' :: '"' :: escapeQuotes rest
  | c :: rest => c :: escapeQuotes rest

/-- The description field as generateCSVString emits it: quote-wrapped with
doubled inner quotes exactly when it contains a comma or a double quote. -/
def encodeDescription (d : List Char) : List Char :=
  if (',' ∈ d) ∨ ('"' ∈ d) then '"' :: (escapeQuotes d ++ ['"'])
  else d

/-- One data row of generateCSVString.  printNum stands for the runtime's
number-to-string conversion applied by the template literal. -/
def csvRow (printNum : JSNum → List Char) (e : Expense) : List Char :=
  e.id ++ ',' :: (e.date ++ ',' :: (printNum e.amount ++ ',' ::
    (e.category ++ ',' :: (encodeDescription e.description ++ ',' ::
      joinSep ';' e.tags))))

/-- The fixed header row of the CSV format. -/
def headerRow : List Char := "id,date,amount,category,description,tags".toList

/-- generateCSVString of src/services/csv.ts: the header row then one row
per record, joined by LF. -/
def generateCSVString (printNum : JSNum → List Char) (expenses : List Expense) :
    List Char :=
  joinSep '\n' (headerRow :: expenses.map (csvRow printNum))

/-- The name of the id column. -/
def colId : List Char := "id".toList

/-- The name of the date column. -/
def colDate : List Char := "date".toList

/-- The name of the amount column. -/
def colAmount : List Char := "amount".toList

/-- The name of the category column. -/
def colCategory : List Char := "category".toList

/-- The name of the description column. -/
def colDescription : List Char := "description".toList

/-- The name of the tags column. -/
def colTags : List Char := "tags".toList

/-- The six required column names, in output order. -/
def requiredCols : List (List Char) :=
  [colId, colDate, colAmount, colCategory, colDescription, colTags]

/-- Array.prototype.indexOf as an optional position (the code's -1 becomes
none). -/
def idxOf (xs : List (List Char)) (v : List Char) : Option Nat :=
  match xs with
  | [] => none
  | x :: rest => if x = v then some 0 else (idxOf rest v).map (· + 1)

/-- The file-level problem for an input of fewer than two lines. -/
def emptyFileMsg : List Char := "File is empty or missing headers".toList

/-- The file-level problem for a header missing a required column. -/
def missingColsMsg : List Char :=
  "Missing required columns: id, date, amount, category, description, tags".toList

/-- The prefix every row-level problem carries: Line then the 1-based line
number then a colon. -/
def lineTag (i : Nat) : List Char :=
  "Line ".toList ++ Nat.toDigits 10 (i + 1) ++ ": ".toList

/-- The anchored date pattern: four digits, dash, two digits, dash, two
digits, and nothing else. -/
def dateOk : List Char → Bool
  | [a, b, c, d, e, f, g, h, i, j] =>
    a.isDigit && b.isDigit && c.isDigit && d.isDigit && (e == '-') &&
      f.isDigit && g.isDigit && (h == '-') && i.isDigit && j.isDigit
  | _ => false

/-- String.prototype.replace of every doubled double quote by one. -/
def unescapeQuotes : List Char → List Char
  | [] => []
  | '"' :: '"' :: rest => '"' :: unescapeQuotes rest
  | c :: rest => c :: unescapeQuotes rest

/-- The description unescaping step of importExpenses: when the trimmed field
both starts and ends with a double quote, strip one from each end and halve
the doubled quotes; otherwise leave it alone. -/
def descriptionAdjust (d : List Char) : List Char :=
  if d.headD ' ' = '"' ∧ d.getLast?.getD ' ' = '"' then
    unescapeQuotes ((d.drop 1).dropLast)
  else d

/-- The positions of the six required columns in the header. -/
structure ColIdx where
  idIx : Nat
  dateIx : Nat
  amountIx : Nat
  categoryIx : Nat
  descriptionIx : Nat
  tagsIx : Nat
deriving DecidableEq

/-- What importExpenses returns: the decoded records and the problem list. -/
structure ImportResult where
  expenses : List Expense
  errors : List (List Char)
deriving DecidableEq

/-- The body of the data-line loop of importExpenses, for the line at 0-based
position i of the file: none when the trimmed line is empty (the loop
continues), otherwise either the row's problem or the decoded record. -/
def processLine (hlen : Nat) (ix : ColIdx) (i : Nat) (rawLine : List Char) :
    Option (Except (List Char) Expense) :=
  let line := trim rawLine
  if line = [] then none
  else some (
    let parts := splitCSVLine line
    if parts.length < hlen then .error (lineTag i ++ "Insufficient columns".toList)
    else
      let idv := trim (parts.getD ix.idIx [])
      let datev := trim (parts.getD ix.dateIx [])
      let amountStr := trim (parts.getD ix.amountIx [])
      let categoryv := trim (parts.getD ix.categoryIx [])
      let descv := trim (parts.getD ix.descriptionIx [])
      let tagsStr := trim (parts.getD ix.tagsIx [])
      if idv = [] then .error (lineTag i ++ "Missing ID".toList)
      else if dateOk datev = false then
        .error (lineTag i ++ "Invalid Date format (YYYY-MM-DD required)".toList)
      else
        let amount := parseFloat amountStr
        if amount = .nan then .error (lineTag i ++ "Invalid Amount".toList)
        else
          .ok { id := idv
                date := datev
                amount := amount
                category := if categoryv = [] then "Uncategorized".toList else categoryv
                description := descriptionAdjust descv
                tags := if tagsStr = [] then []
                        else ((splitSep ';' tagsStr).map trim).filter
                          (fun t => !t.isEmpty) })

/-- The data-line loop of importExpenses: valid rows are collected in order,
problems are collected in order, empty lines are skipped. -/
def importLoop (hlen : Nat) (ix : ColIdx) : Nat → List (List Char) → ImportResult
  | _, [] => ⟨[], []⟩
  | i, l :: rest =>
    let r := importLoop hlen ix (i + 1) rest
    match processLine hlen ix i l with
    | none => r
    | some (.ok e) => ⟨e :: r.expenses, r.errors⟩
    | some (.error m) => ⟨r.expenses, m :: r.errors⟩

/-- The header columns of an input: the first line, trimmed, split on
commas. -/
def headerCols (csvText : List Char) : List (List Char) :=
  splitSep ',' (trim ((splitLines csvText).headD []))

/-- The resolved positions of the six required columns, none when any is
missing from the header. -/
def colIdx (csvText : List Char) : Option ColIdx :=
  match idxOf (headerCols csvText) colId, idxOf (headerCols csvText) colDate,
        idxOf (headerCols csvText) colAmount, idxOf (headerCols csvText) colCategory,
        idxOf (headerCols csvText) colDescription, idxOf (headerCols csvText) colTags with
  | some a, some b, some c, some d, some e, some f => some ⟨a, b, c, d, e, f⟩
  | _, _, _, _, _, _ => none

/-- importExpenses of src/services/csv.ts. -/
def importExpenses (csvText : List Char) : ImportResult :=
  let lines := splitLines csvText
  if lines.length < 2 then ⟨[], [emptyFileMsg]⟩
  else
    match colIdx csvText with
    | none => ⟨[], [missingColsMsg]⟩
    | some ix => importLoop (headerCols csvText).length ix 1 (lines.drop 1)

/-! ## Concrete data used by the evaluation theorems -/

/-- The three-record collection of the repository's own test suite. -/
def testExpenses : List Expense :=
  [ { id := ['1'], amount := .num 50, date := "2023-10-25".toList,
      category := "Food".toList, description := "Groceries".toList,
      tags := ["home".toList] },
    { id := ['2'], amount := .num 30, date := "2023-10-25".toList,
      category := "Transport".toList, description := "Gas".toList, tags := [] },
    { id := ['3'], amount := .num 100, date := "2023-10-24".toList,
      category := "Housing".toList, description := "Rent".toList,
      tags := ["bill".toList] } ]

/-- The stored record of the merge example. -/
def mergeE50 : Expense :=
  { id := ['1'], amount := .num 50, date := "2023-10-25".toList,
    category := "Food".toList, description := "Groceries".toList, tags := [] }

/-- The incoming record of the merge example: same id, amount 500. -/
def mergeE500 : Expense :=
  { id := ['1'], amount := .num 500, date := "2023-10-25".toList,
    category := "Changed".toList, description := "Modified".toList, tags := [] }

/-- A concrete import whose single data row carries the literal Infinity in
the amount column. -/
def infinityCSV : List Char :=
  "id,date,amount,category,description,tags\n1,2023-01-01,Infinity,Food,x,".toList

/-- A concrete import with a valid header, one malformed data row and one
valid data row. -/
def partialCSV : List Char :=
  "id,date,amount,category,description,tags\nbad\n2,2023-01-02,7,Cat,ok,a;b".toList

/-- A concrete import whose single data row pads every field with spaces. -/
def trimCSV : List Char :=
  "id,date,amount,category,description,tags\n 9 ,2023-01-01, 5 , Food , padded desc , t1 ; t2 ".toList

/-- The record the padded row decodes to: every field trimmed. -/
def trimmedRec : Expense :=
  { id := ['9'], amount := .num 5, date := "2023-01-01".toList,
    category := "Food".toList, description := "padded desc".toList,
    tags := ["t1".toList, "t2".toList] }

/-- Characters that break a raw field of the narrow escaping policy: the
separator comma, the quote the scanner consumes, and the two line
terminators. -/
@[reducible] def noSpecial (s : List Char) : Prop :=
  ',' ∉ s ∧ '"' ∉ s ∧ '\n' ∉ s ∧ '\r' ∉ s

/-- The conditions under which one record survives the codec's narrow
escaping policy: id and category nonempty, trimmed and free of special
characters; a well-formed date; a description free of quotes and line
terminators (commas are fine — they are what the quoting defends); and
nonempty, trimmed tags free of special characters and of the tag
separator. -/
@[reducible] def csvSafe (e : Expense) : Prop :=
  e.id ≠ [] ∧ noSpecial e.id ∧ trim e.id = e.id ∧
  dateOk e.date = true ∧
  e.category ≠ [] ∧ noSpecial e.category ∧ trim e.category = e.category ∧
  '"' ∉ e.description ∧ '\n' ∉ e.description ∧ '\r' ∉ e.description ∧
  trim e.description = e.description ∧
  ∀ t ∈ e.tags, t ≠ [] ∧ noSpecial t ∧ ';' ∉ t ∧ trim t = t

/-- What the ambient number-to-string conversion must satisfy for one
record's amount to survive the round trip: parsing the rendering gives the
amount back, the amount is not NaN, and the rendering is a trimmed string
free of special characters. -/
@[reducible] def printNumOk (printNum : JSNum → List Char) (e : Expense) : Prop :=
  parseFloat (printNum e.amount) = e.amount ∧ e.amount ≠ .nan ∧
  noSpecial (printNum e.amount) ∧ trim (printNum e.amount) = printNum e.amount

/-- Safety of a field set is decidable, so concrete instances evaluate. -/
instance noSpecialDecidable (s : List Char) : Decidable (noSpecial s) := by
  unfold noSpecial
  infer_instance

/-- Record safety is decidable, so concrete instances evaluate. -/
instance csvSafeDecidable (e : Expense) : Decidable (csvSafe e) := by
  unfold csvSafe
  infer_instance

/-- Printer adequacy is decidable, so concrete instances evaluate. -/
instance printNumOkDecidable (printNum : JSNum → List Char) (e : Expense) :
    Decidable (printNumOk printNum e) := by
  unfold printNumOk
  infer_instance

/-- A number printer for the concrete instances: every amount prints as the
digit 5 (the concrete records all carry amount 5, which the runtime prints
the same way). -/
def printNumFive : JSNum → List Char := fun _ => ['5']

/-- C1 counterexample record: well-formed per the claim (valid date, finite
amount, unique id) but with a double quote in its description. -/
def quoteDescExpense : Expense :=
  { id := ['1'], amount := .num 5, date := "2023-01-01".toList,
    category := "Food".toList, description := ['a', '"', 'b'], tags := [] }

/-- C2 counterexample record: a double quote inside the description. -/
def quoteDescExpense2 : Expense :=
  { id := ['7'], amount := .num 5, date := "2023-02-02".toList,
    category := "Misc".toList, description := ['x', '"', 'y'], tags := [] }

/-- A CSV-safe record with a comma in its description, for the witnesses. -/
def commaDescExpense : Expense :=
  { id := ['3'], amount := .num 5, date := "2023-03-03".toList,
    category := "Food".toList, description := "a, b".toList,
    tags := ["x".toList, "y".toList] }

/-! ## Comparison facts about JSNum -/

/-- On JavaScript numbers a strict greater-than refutes the corresponding
less-than-or-equal, NaN making both sides false. -/
theorem jle_eq_false_of_jgt (a b : JSNum) (h : jgt a b = true) : jle a b = false := by
  cases a <;> cases b <;> simp_all [jgt, jlt, jle]

/-! ## Claim theorems about calculateDailyStats -/

/-- C9: for every collection, reference date and limit, isOverLimit is the
strict comparison of the day's spend with the limit, isNearLimit is the
conjunction of spend at most limit and uncapped percentage at least 80, and
the two flags are never both true. -/
theorem calculateDailyStats_flags :
    ∀ (es : List Expense) (d : List Char) (l : JSNum),
      (calculateDailyStats es d l).isOverLimit = jgt (dailySpend es d) l ∧
      (calculateDailyStats es d l).isNearLimit
        = (jle (dailySpend es d) l && jge (rawLimitPercentage es d l) (.num 80)) ∧
      ¬((calculateDailyStats es d l).isOverLimit = true ∧
        (calculateDailyStats es d l).isNearLimit = true) := by
  intro es d l
  refine ⟨rfl, rfl, ?_⟩
  rintro ⟨hov, hnear⟩
  have hle : jle (dailySpend es d) l = false :=
    jle_eq_false_of_jgt _ _ hov
  have : (calculateDailyStats es d l).isNearLimit = false := by
    show (jle (dailySpend es d) l && jge (rawLimitPercentage es d l) (.num 80)) = false
    rw [hle, Bool.false_and]
  rw [hnear] at this
  exact Bool.noConfusion this


section ConcreteEvaluation

attribute [local semireducible] Rat.add Rat.mul Rat.inv Rat.sub

/-- C5: at the zero-limit input of the repository's own test, the spend is 80
and isOverLimit holds, but limitPercentage evaluates to 0 — not the 100 the
spec sentence and the bundled test assert — because the limit-positive guard
short-circuits the percentage to 0 before the cap is applied. -/
theorem calculateDailyStats_zero_limit_eval :
    calculateDailyStats testExpenses ("2023-10-25".toList) (.num 0)
      = { todaySpend := .num 80, isOverLimit := true, isNearLimit := false,
          limitPercentage := .num 0 } ∧
    (calculateDailyStats testExpenses ("2023-10-25".toList) (.num 0)).limitPercentage
      ≠ .num 100 := by
  constructor
  · decide
  · decide

/-! ## Claim theorems about mergeExpenses -/

/-- An incoming record's counting step keeps the running total: added plus
updated grows by exactly one per incoming record. -/
theorem mergeFold_count (incoming : List Expense) :
    ∀ (m : List Expense) (a u : Nat),
      (incoming.foldl mergeStep (m, a, u)).2.1
          + (incoming.foldl mergeStep (m, a, u)).2.2
        = a + u + incoming.length := by
  induction incoming with
  | nil => intro m a u; simp
  | cons x xs ih =>
    intro m a u
    simp only [List.foldl_cons]
    by_cases h : m.any (fun y => decide (y.id = x.id)) = true
    · rw [mergeStep, if_pos h]
      rw [ih]
      simp only [List.length_cons]
      omega
    · rw [mergeStep, if_neg h]
      rw [ih]
      simp only [List.length_cons]
      omega



/-- Looking up a key other than the replaced id does not see the in-place
replacement. -/
theorem find?_map_replace_untouched (e : Expense) (k : List Char)
    (hek : ¬ e.id = k) :
    ∀ m : List Expense,
      (m.map (fun x => if x.id = e.id then e else x)).find?
          (fun x => decide (x.id = k))
        = m.find? (fun x => decide (x.id = k)) := by
  intro m
  induction m with
  | nil => rfl
  | cons x m2 ih =>
    rw [List.map_cons]
    by_cases hxe : x.id = e.id
    · rw [if_pos hxe,
        List.find?_cons_of_neg _ (by
          simp only [decide_eq_true_eq]
          exact hek),
        List.find?_cons_of_neg _ (by
          simp only [decide_eq_true_eq]
          exact fun h => hek (hxe.symm.trans h)), ih]
    · rw [if_neg hxe]
      by_cases hxk : x.id = k
      · rw [List.find?_cons_of_pos _ (by simpa using hxk),
          List.find?_cons_of_pos _ (by simpa using hxk)]
      · rw [List.find?_cons_of_neg _ (by simpa using hxk),
          List.find?_cons_of_neg _ (by simpa using hxk), ih]

/-- Looking up a key in the in-place-replaced list: the replaced id finds
the new record, every other key is untouched. -/
theorem find?_map_replace (e : Expense) (k : List Char) :
    ∀ m : List Expense, (∃ x ∈ m, x.id = e.id) →
      (m.map (fun x => if x.id = e.id then e else x)).find?
          (fun x => decide (x.id = k))
        = if e.id = k then some e else m.find? (fun x => decide (x.id = k)) := by
  intro m
  induction m with
  | nil => rintro ⟨x, hx, _⟩; cases hx
  | cons x m2 ih =>
    rintro ⟨x0, hx0, hx0e⟩
    rw [List.map_cons]
    by_cases hxe : x.id = e.id
    · rw [if_pos hxe]
      by_cases hek : e.id = k
      · rw [if_pos hek, List.find?_cons_of_pos _ (by simpa using hek)]
      · rw [if_neg hek, List.find?_cons_of_neg _ (by simpa using hek),
          List.find?_cons_of_neg _ (by
            simp only [decide_eq_true_eq]
            exact fun h => hek (hxe.symm.trans h)),
          find?_map_replace_untouched e k hek m2]
    · rw [if_neg hxe]
      by_cases hek : e.id = k
      · have hxk : ¬ x.id = k := fun h => hxe (h.trans hek.symm)
        rw [if_pos hek, List.find?_cons_of_neg _ (by simpa using hxk)]
        have hx0m2 : ∃ y ∈ m2, y.id = e.id := by
          rcases List.mem_cons.mp hx0 with h | h
          · exact absurd (h ▸ hx0e) hxe
          · exact ⟨x0, h, hx0e⟩
        rw [ih hx0m2, if_pos hek]
      · rw [if_neg hek]
        by_cases hxk : x.id = k
        · rw [List.find?_cons_of_pos _ (by simpa using hxk),
            List.find?_cons_of_pos _ (by simpa using hxk)]
        · rw [List.find?_cons_of_neg _ (by simpa using hxk),
            List.find?_cons_of_neg _ (by simpa using hxk),
            find?_map_replace_untouched e k hek m2]

/-- Appending a record whose id is absent changes only that id's lookup. -/
theorem find?_append_new (e : Expense) (k : List Char) (m : List Expense)
    (hnew : ¬ ∃ x ∈ m, x.id = e.id) :
    (m ++ [e]).find? (fun x => decide (x.id = k))
      = if e.id = k then some e else m.find? (fun x => decide (x.id = k)) := by
  rw [List.find?_append]
  by_cases hek : e.id = k
  · rw [if_pos hek]
    have hm : m.find? (fun x => decide (x.id = k)) = none := by
      rw [List.find?_eq_none]
      intro x hx
      simp only [decide_eq_true_eq]
      exact fun h => hnew ⟨x, hx, h.trans hek.symm⟩
    rw [hm, Option.none_or, List.find?_cons_of_pos _ (by simpa using hek)]
  · rw [if_neg hek, List.find?_cons_of_neg _ (by simpa using hek), List.find?_nil,
      Option.or_none]

/-- Map.prototype.set through the lookup: the written id now finds the
written record, every other id finds what it found before. -/
theorem mapGet_mapSet (m : List Expense) (e : Expense) (k : List Char) :
    mapGet (mapSet m e) k = if e.id = k then some e else mapGet m k := by
  rw [mapGet, mapGet, mapSet]
  split
  · rename_i hpres
    rw [List.any_eq_true] at hpres
    obtain ⟨x0, hx0, hx0e⟩ := hpres
    rw [decide_eq_true_eq] at hx0e
    exact find?_map_replace e k m ⟨x0, hx0, hx0e⟩
  · rename_i hpres
    refine find?_append_new e k m ?_
    rintro ⟨x, hx, hxe⟩
    exact hpres (List.any_eq_true.mpr ⟨x, hx, by simpa using hxe⟩)

/-- Map.prototype.set through id membership: the written id is present,
every other id keeps its presence. -/
theorem mem_ids_mapSet (m : List Expense) (e : Expense) (k : List Char) :
    (∃ x ∈ mapSet m e, x.id = k) ↔ ((∃ x ∈ m, x.id = k) ∨ e.id = k) := by
  rw [mapSet]
  split
  · rename_i hpres
    rw [List.any_eq_true] at hpres
    obtain ⟨x0, hx0, hx0e⟩ := hpres
    rw [decide_eq_true_eq] at hx0e
    constructor
    · rintro ⟨y, hy, hyk⟩
      obtain ⟨x, hx, rfl⟩ := List.mem_map.mp hy
      by_cases hxe : x.id = e.id
      · rw [if_pos hxe] at hyk
        exact Or.inl ⟨x0, hx0, hx0e.trans hyk⟩
      · rw [if_neg hxe] at hyk
        exact Or.inl ⟨x, hx, hyk⟩
    · rintro (⟨y, hy, hyk⟩ | hek)
      · by_cases hye : y.id = e.id
        · exact ⟨e, List.mem_map.mpr ⟨y, hy, by rw [if_pos hye]⟩, hye.symm.trans hyk⟩
        · exact ⟨y, List.mem_map.mpr ⟨y, hy, by rw [if_neg hye]⟩, hyk⟩
      · exact ⟨e, List.mem_map.mpr ⟨x0, hx0, by rw [if_pos hx0e]⟩, hek⟩
  · constructor
    · rintro ⟨y, hy, hyk⟩
      rcases List.mem_append.mp hy with h | h
      · exact Or.inl ⟨y, h, hyk⟩
      · rw [List.mem_singleton.mp h] at hyk
        exact Or.inr hyk
    · rintro (⟨y, hy, hyk⟩ | hek)
      · exact ⟨y, List.mem_append.mpr (Or.inl hy), hyk⟩
      · exact ⟨e, List.mem_append.mpr (Or.inr (List.mem_singleton.mpr rfl)), hek⟩

/-- Seeding the map from current realizes last-write-wins within current:
every key finds the last current record carrying it. -/
theorem seedFold_get (current : List Expense) :
    ∀ (m : List Expense) (k : List Char),
      mapGet (current.foldl mapSet m) k
        = (current.reverse.find? (fun x => decide (x.id = k))).or (mapGet m k) := by
  induction current with
  | nil => intro m k; simp
  | cons c rest ih =>
    intro m k
    rw [List.foldl_cons, ih (mapSet m c) k, List.reverse_cons, List.find?_append,
      Option.or_assoc, mapGet_mapSet]
    by_cases hck : c.id = k
    · rw [if_pos hck, List.find?_cons_of_pos _ (by simpa using hck), Option.or_some]
    · rw [if_neg hck, List.find?_cons_of_neg _ (by simpa using hck), List.find?_nil,
        Option.none_or]

/-- The ids present after seeding are exactly the ids of current (plus
whatever the starting map already held). -/
theorem seedFold_ids (current : List Expense) :
    ∀ (m : List Expense) (k : List Char),
      (∃ x ∈ current.foldl mapSet m, x.id = k)
        ↔ ((∃ x ∈ m, x.id = k) ∨ k ∈ current.map (fun e => e.id)) := by
  induction current with
  | nil => intro m k; simp
  | cons c rest ih =>
    intro m k
    rw [List.foldl_cons, ih (mapSet m c) k, List.map_cons, mem_ids_mapSet]
    simp only [List.mem_cons]
    constructor
    · rintro ((h | h) | h)
      · exact Or.inl h
      · exact Or.inr (Or.inl h.symm)
      · exact Or.inr (Or.inr h)
    · rintro (h | h | h)
      · exact Or.inl (Or.inl h)
      · exact Or.inl (Or.inr h.symm)
      · exact Or.inr h

/-- The incoming loop realizes overwrite and last-write-wins: after the
fold, every key finds the last incoming record carrying it, and keys no
incoming record carries keep their previous binding. -/
theorem mergeFold_get (incoming : List Expense) :
    ∀ (m : List Expense) (a u : Nat) (k : List Char),
      mapGet ((incoming.foldl mergeStep (m, a, u)).1) k
        = (incoming.reverse.find? (fun x => decide (x.id = k))).or (mapGet m k) := by
  induction incoming with
  | nil => intro m a u k; simp
  | cons inc rest ih =>
    intro m a u k
    rw [List.foldl_cons, List.reverse_cons, List.find?_append, Option.or_assoc,
      mergeStep]
    split
    · rw [ih (mapSet m inc) a (u + 1) k, mapGet_mapSet]
      by_cases hik : inc.id = k
      · rw [if_pos hik, List.find?_cons_of_pos _ (by simpa using hik), Option.or_some]
      · rw [if_neg hik, List.find?_cons_of_neg _ (by simpa using hik), List.find?_nil,
        Option.none_or]
    · rw [ih (mapSet m inc) (a + 1) u k, mapGet_mapSet]
      by_cases hik : inc.id = k
      · rw [if_pos hik, List.find?_cons_of_pos _ (by simpa using hik), Option.or_some]
      · rw [if_neg hik, List.find?_cons_of_neg _ (by simpa using hik), List.find?_nil,
        Option.none_or]

/-- The incoming loop realizes the claim's per-record dispatch: starting
from a map whose ids are exactly the given present set, the counters grow
by exactly the specification-side counts — one update for a record whose id
is present, one add (and a new present id) otherwise. -/
theorem mergeFold_counts (incoming : List Expense) :
    ∀ (m : List Expense) (present : List (List Char)) (a u : Nat),
      (∀ k, (∃ x ∈ m, x.id = k) ↔ k ∈ present) →
      (incoming.foldl mergeStep (m, a, u)).2.1
          = a + (mergeCountsSpec present incoming).1 ∧
      (incoming.foldl mergeStep (m, a, u)).2.2
          = u + (mergeCountsSpec present incoming).2 := by
  induction incoming with
  | nil => intro m present a u _; simp [mergeCountsSpec]
  | cons inc rest ih =>
    intro m present a u hinv
    rw [List.foldl_cons, mergeStep]
    by_cases hpres : inc.id ∈ present
    · have hany : m.any (fun x => decide (x.id = inc.id)) = true :=
        List.any_eq_true.mpr (by
          obtain ⟨x, hx, hxe⟩ := (hinv inc.id).mpr hpres
          exact ⟨x, hx, by simpa using hxe⟩)
      rw [if_pos hany]
      have hinv2 : ∀ k, (∃ x ∈ mapSet m inc, x.id = k) ↔ k ∈ present := by
        intro k
        rw [mem_ids_mapSet]
        constructor
        · rintro (h | h)
          · exact (hinv k).mp h
          · rw [← h]; exact hpres
        · intro h
          exact Or.inl ((hinv k).mpr h)
      obtain ⟨h1, h2⟩ := ih (mapSet m inc) present a (u + 1) hinv2
      rw [mergeCountsSpec, if_pos hpres]
      exact ⟨h1, by rw [h2]; omega⟩
    · have hany : ¬ m.any (fun x => decide (x.id = inc.id)) = true := by
        intro h
        rw [List.any_eq_true] at h
        obtain ⟨x, hx, hxe⟩ := h
        rw [decide_eq_true_eq] at hxe
        exact hpres ((hinv inc.id).mp ⟨x, hx, hxe⟩)
      rw [if_neg hany]
      have hinv2 : ∀ k, (∃ x ∈ mapSet m inc, x.id = k) ↔ k ∈ inc.id :: present := by
        intro k
        rw [mem_ids_mapSet, List.mem_cons]
        constructor
        · rintro (h | h)
          · exact Or.inr ((hinv k).mp h)
          · exact Or.inl h.symm
        · rintro (h | h)
          · exact Or.inr h.symm
          · exact Or.inl ((hinv k).mpr h)
      obtain ⟨h1, h2⟩ := ih (mapSet m inc) (inc.id :: present) (a + 1) u hinv2
      rw [mergeCountsSpec, if_neg hpres]
      exact ⟨by rw [h1]; omega, h2⟩

/-- C6: for every pair of collections, mergeExpenses processes each
incoming record in order against the id-keyed map seeded from current: the
returned counters are exactly the per-record dispatch counts (one update
when the id is already present, one add otherwise, so added plus updated is
the incoming length) and skipped is always 0; for every id, the merged
collection's record is the last incoming record with that id when one
exists (the incoming record overwrites the stored one, last write by
position in incoming winning) and the stored record otherwise; in
particular merging the stored id-1 amount-50 record with an incoming id-1
amount-500 record yields amount 500 with updated 1 and added 0, and a later
duplicate inside incoming also wins, counting one add and one update. -/
theorem mergeExpenses_spec :
    (∀ current incoming : List Expense,
      (mergeExpenses current incoming).2.skipped = 0 ∧
      (mergeExpenses current incoming).2.added
          = (mergeCountsSpec (current.map (fun e => e.id)) incoming).1 ∧
      (mergeExpenses current incoming).2.updated
          = (mergeCountsSpec (current.map (fun e => e.id)) incoming).2 ∧
      (mergeExpenses current incoming).2.added
          + (mergeExpenses current incoming).2.updated = incoming.length) ∧
    (∀ (current incoming : List Expense) (k : List Char),
      mapGet (mergeExpenses current incoming).1 k
        = (incoming.reverse.find? (fun x => decide (x.id = k))).or
            (current.reverse.find? (fun x => decide (x.id = k)))) ∧
    mergeExpenses [mergeE50] [mergeE500] = ([mergeE500], ⟨0, 1, 0⟩) ∧
    mergeExpenses [] [mergeE50, mergeE500] = ([mergeE500], ⟨1, 1, 0⟩) := by
  have hinv : ∀ current : List Expense, ∀ k,
      (∃ x ∈ current.foldl mapSet [], x.id = k)
        ↔ k ∈ current.map (fun e => e.id) := by
    intro current k
    rw [seedFold_ids current [] k]
    simp
  refine ⟨fun current incoming => ⟨rfl, ?_, ?_, ?_⟩,
    fun current incoming k => ?_, by decide, by decide⟩
  · have h := (mergeFold_counts incoming (current.foldl mapSet [])
      (current.map (fun e => e.id)) 0 0 (hinv current)).1
    show (incoming.foldl mergeStep (current.foldl mapSet [], 0, 0)).2.1 = _
    omega
  · have h := (mergeFold_counts incoming (current.foldl mapSet [])
      (current.map (fun e => e.id)) 0 0 (hinv current)).2
    show (incoming.foldl mergeStep (current.foldl mapSet [], 0, 0)).2.2 = _
    omega
  · show (incoming.foldl mergeStep (current.foldl mapSet [], 0, 0)).2.1
        + (incoming.foldl mergeStep (current.foldl mapSet [], 0, 0)).2.2
      = incoming.length
    rw [mergeFold_count]
    omega
  · show mapGet ((incoming.foldl mergeStep (current.foldl mapSet [], 0, 0)).1) k = _
    rw [mergeFold_get incoming (current.foldl mapSet []) 0 0 k,
      seedFold_get current [] k,
      show mapGet ([] : List Expense) k = none from rfl, Option.or_none]

end ConcreteEvaluation

/-! ## Facts about the field scanner -/

/-- consHead never produces the empty list of pieces. -/
theorem consHead_ne_nil (c : Char) (ls : List (List Char)) : consHead c ls ≠ [] := by
  cases ls <;> simp [consHead]

/-- The scanner never produces the empty list of fields. -/
theorem scanFields_ne_nil (l : List Char) : ∀ inQ, scanFields inQ l ≠ [] := by
  induction l with
  | nil => intro inQ; simp [scanFields]
  | cons c rest ih =>
    intro inQ
    rw [scanFields]
    by_cases h1 : c = '"'
    · rw [if_pos h1]; exact ih _
    · rw [if_neg h1]
      by_cases h2 : c = ',' ∧ inQ = false
      · rw [if_pos h2]; simp
      · rw [if_neg h2]; exact consHead_ne_nil _ _

/-- Every field the scanner produces is free of double quotes: the toggle
consumes them. -/
theorem mem_scanFields_no_quote (l : List Char) :
    ∀ inQ p, p ∈ scanFields inQ l → '"' ∉ p := by
  induction l with
  | nil =>
    intro inQ p hp
    simp [scanFields] at hp
    simp [hp]
  | cons c rest ih =>
    intro inQ p hp
    rw [scanFields] at hp
    by_cases h1 : c = '"'
    · rw [if_pos h1] at hp; exact ih _ _ hp
    · rw [if_neg h1] at hp
      by_cases h2 : c = ',' ∧ inQ = false
      · rw [if_pos h2] at hp
        rcases List.mem_cons.mp hp with h | h
        · simp [h]
        · exact ih _ _ h
      · rw [if_neg h2] at hp
        obtain ⟨h0, t0, ht⟩ := List.exists_cons_of_ne_nil (scanFields_ne_nil rest inQ)
        rw [ht] at hp
        simp only [consHead] at hp
        rcases List.mem_cons.mp hp with h | h
        · subst h
          intro hc
          rcases List.mem_cons.mp hc with h | h
          · exact h1 h.symm
          · exact ih inQ h0 (ht ▸ List.mem_cons_self _ _) h
        · exact ih inQ p (ht ▸ List.mem_cons_of_mem _ h)

/-- On a quote-free line the scanner agrees with a plain comma split. -/
theorem scanFields_eq_splitSep (l : List Char) (hl : '"' ∉ l) :
    scanFields false l = splitSep ',' l := by
  induction l with
  | nil => rfl
  | cons c rest ih =>
    have hc : c ≠ '"' := fun h => hl (h ▸ List.mem_cons_self _ _)
    have hrest : '"' ∉ rest := fun h => hl (List.mem_cons_of_mem _ h)
    rw [scanFields, splitSep, if_neg hc]
    by_cases h2 : c = ','
    · rw [if_pos ⟨h2, rfl⟩, if_pos h2, ih hrest]
    · rw [if_neg (fun h => h2 h.1), if_neg h2, ih hrest]

/-- Inside a quoted region every character, commas included, is appended to
the current field; the closing quote followed by a comma ends the field. -/
theorem scanFields_true_comma (d : List Char) (rest : List Char) (hd : '"' ∉ d) :
    scanFields true (d ++ '"' :: ',' :: rest) = d :: scanFields false rest := by
  induction d with
  | nil =>
    rw [List.nil_append, scanFields, if_pos rfl, scanFields,
      if_neg (by decide), if_pos ⟨rfl, rfl⟩]
  | cons c d2 ih =>
    have hc : c ≠ '"' := fun h => hd (h ▸ List.mem_cons_self _ _)
    have hd2 : '"' ∉ d2 := fun h => hd (List.mem_cons_of_mem _ h)
    rw [List.cons_append, scanFields, if_neg hc, if_neg (by rintro ⟨_, h⟩; cases h),
      ih hd2, consHead]

/-- A quoted field that ends the line: the characters up to the closing quote
become the final field. -/
theorem scanFields_true_end (d : List Char) (hd : '"' ∉ d) :
    scanFields true (d ++ ['"']) = [d] := by
  induction d with
  | nil => rw [List.nil_append, scanFields, if_pos rfl, scanFields]
  | cons c d2 ih =>
    have hc : c ≠ '"' := fun h => hd (h ▸ List.mem_cons_self _ _)
    have hd2 : '"' ∉ d2 := fun h => hd (List.mem_cons_of_mem _ h)
    rw [List.cons_append, scanFields, if_neg hc, if_neg (by rintro ⟨_, h⟩; cases h),
      ih hd2, consHead]

/-- An unquoted comma-free field followed by a comma becomes one field. -/
theorem scanFields_false_comma (f : List Char) (rest : List Char)
    (hf1 : ',' ∉ f) (hf2 : '"' ∉ f) :
    scanFields false (f ++ ',' :: rest) = f :: scanFields false rest := by
  induction f with
  | nil => rw [List.nil_append, scanFields, if_neg (by decide), if_pos ⟨rfl, rfl⟩]
  | cons c f2 ih =>
    have hc1 : c ≠ ',' := fun h => hf1 (h ▸ List.mem_cons_self _ _)
    have hc2 : c ≠ '"' := fun h => hf2 (h ▸ List.mem_cons_self _ _)
    rw [List.cons_append, scanFields, if_neg hc2, if_neg (fun h => hc1 h.1),
      ih (fun h => hf1 (List.mem_cons_of_mem _ h)) (fun h => hf2 (List.mem_cons_of_mem _ h)),
      consHead]

/-- An unquoted comma-free field ending the line becomes the final field. -/
theorem scanFields_false_end (f : List Char) (hf1 : ',' ∉ f) (hf2 : '"' ∉ f) :
    scanFields false f = [f] := by
  induction f with
  | nil => rfl
  | cons c f2 ih =>
    have hc1 : c ≠ ',' := fun h => hf1 (h ▸ List.mem_cons_self _ _)
    have hc2 : c ≠ '"' := fun h => hf2 (h ▸ List.mem_cons_self _ _)
    rw [scanFields, if_neg hc2, if_neg (fun h => hc1 h.1),
      ih (fun h => hf1 (List.mem_cons_of_mem _ h)) (fun h => hf2 (List.mem_cons_of_mem _ h)),
      consHead]

/-- Membership survives trimming: trim only removes characters. -/
theorem mem_of_mem_trim {c : Char} {s : List Char} (h : c ∈ trim s) : c ∈ s := by
  unfold trim at h
  rw [List.mem_reverse] at h
  have h2 := (List.dropWhile_sublist isSpaceChar).subset h
  rw [List.mem_reverse] at h2
  exact (List.dropWhile_sublist isSpaceChar).subset h2

/-- A quote-free field is unchanged by the description unescaping step. -/
theorem descriptionAdjust_no_quote (d : List Char) (h : '"' ∉ d) :
    descriptionAdjust d = d := by
  rw [descriptionAdjust, if_neg]
  rintro ⟨h1, _⟩
  cases d with
  | nil => simp [List.headD] at h1
  | cons c t =>
    simp only [List.headD_cons] at h1
    exact h (h1 ▸ List.mem_cons_self _ _)

/-- C3 counterexample: splitting the concrete line a,"b""c",d respects the
comma structure but drops every literal double quote from the middle field —
the scanner output contains no quote at all, refuting structural
preservation of quote characters during splitting. -/
theorem scanner_drops_quotes_cex :
    splitCSVLine ("a,\"b\"\"c\",d".toList)
        = [['a'], ['b', 'c'], ['d']] ∧
    (∀ p ∈ splitCSVLine ("a,\"b\"\"c\",d".toList), '"' ∉ p) ∧
    '"' ∈ "a,\"b\"\"c\",d".toList := by
  refine ⟨by decide, ?_, by decide⟩
  decide

/-- C3 (amended): the scanner treats a comma as a field separator exactly
when the inside-quotes flag is off — on a quote-free line it coincides with
a plain comma split, and a quoted region keeps its commas inside a single
field — but literal quote characters are consumed by the flag toggle and
never appear in any split field, so the post-split description unescaping
step never changes the field it is applied to. -/
theorem scanner_spec :
    (∀ line : List Char, ∀ p ∈ splitCSVLine line, '"' ∉ p) ∧
    (∀ line : List Char, '"' ∉ line → splitCSVLine line = splitSep ',' line) ∧
    (∀ d rest : List Char, '"' ∉ d →
      splitCSVLine (('"' :: d) ++ '"' :: ',' :: rest) = d :: splitCSVLine rest) ∧
    (∀ line : List Char, ∀ p ∈ splitCSVLine line,
      descriptionAdjust (trim p) = trim p) := by
  refine ⟨fun line p hp => mem_scanFields_no_quote line false p hp,
    fun line h => scanFields_eq_splitSep line h,
    fun d rest hd => ?_,
    fun line p hp => descriptionAdjust_no_quote _
      (fun hc => mem_scanFields_no_quote line false p hp (mem_of_mem_trim hc))⟩
  show scanFields false ('"' :: (d ++ '"' :: ',' :: rest)) = _
  rw [scanFields, if_pos rfl]
  show scanFields true (d ++ '"' :: ',' :: rest) = _
  rw [scanFields_true_comma d rest hd]
  rfl

/-! ## Inversion facts about the row decoder -/

/-- Inverting a successful row decode: every field of the produced record is
determined by the trimmed parts of the scanned line, the date check passed,
and the amount is a non-NaN parseFloat result. -/
theorem processLine_ok_inv (hlen : Nat) (ix : ColIdx) (i : Nat) (raw : List Char)
    (e : Expense) (h : processLine hlen ix i raw = some (.ok e)) :
    e.id = trim ((splitCSVLine (trim raw)).getD ix.idIx []) ∧
    e.date = trim ((splitCSVLine (trim raw)).getD ix.dateIx []) ∧
    dateOk e.date = true ∧
    e.amount = parseFloat (trim ((splitCSVLine (trim raw)).getD ix.amountIx [])) ∧
    e.amount ≠ .nan ∧
    e.category = (if trim ((splitCSVLine (trim raw)).getD ix.categoryIx []) = []
      then "Uncategorized".toList
      else trim ((splitCSVLine (trim raw)).getD ix.categoryIx [])) ∧
    e.description = descriptionAdjust (trim ((splitCSVLine (trim raw)).getD ix.descriptionIx [])) ∧
    e.tags = (if trim ((splitCSVLine (trim raw)).getD ix.tagsIx []) = [] then []
      else ((splitSep ';' (trim ((splitCSVLine (trim raw)).getD ix.tagsIx []))).map trim).filter
        (fun t => !t.isEmpty)) := by
  simp only [processLine] at h
  split at h
  · exact absurd h (by simp)
  · rw [Option.some.injEq] at h
    split at h
    · exact absurd h (by simp)
    · split at h
      · exact absurd h (by simp)
      · split at h
        · exact absurd h (by simp)
        · split at h
          · exact absurd h (by simp)
          · rename_i hempty hcols hid hdate hnan
            rw [Except.ok.injEq] at h
            subst h
            refine ⟨rfl, rfl, ?_, rfl, hnan, rfl, rfl, rfl⟩
            simpa using hdate

/-- Inverting a failed row decode: every problem message a row produces
starts with the line tag of its 0-based position. -/
theorem processLine_error_inv (hlen : Nat) (ix : ColIdx) (i : Nat)
    (raw : List Char) (m : List Char)
    (h : processLine hlen ix i raw = some (.error m)) :
    ∃ r, m = lineTag i ++ r := by
  simp only [processLine] at h
  split at h
  · exact absurd h (by simp)
  · rw [Option.some.injEq] at h
    split at h
    · exact ⟨_, ((Except.error.injEq _ _).mp h).symm⟩
    · split at h
      · exact ⟨_, ((Except.error.injEq _ _).mp h).symm⟩
      · split at h
        · exact ⟨_, ((Except.error.injEq _ _).mp h).symm⟩
        · split at h
          · exact ⟨_, ((Except.error.injEq _ _).mp h).symm⟩
          · exact absurd h (by simp)

/-- Every record the data-line loop collects comes from a successful
processLine at some position at or after the starting index. -/
theorem importLoop_mem_expenses (hlen : Nat) (ix : ColIdx) :
    ∀ (ls : List (List Char)) (i : Nat) (e : Expense),
      e ∈ (importLoop hlen ix i ls).expenses →
      ∃ j l, i ≤ j ∧ l ∈ ls ∧ processLine hlen ix j l = some (.ok e) := by
  intro ls
  induction ls with
  | nil => intro i e h; simp [importLoop] at h
  | cons l rest ih =>
    intro i e h
    rw [importLoop] at h
    rcases hp : processLine hlen ix i l with _ | pe
    · rw [hp] at h
      obtain ⟨j, l2, hij, hl, hpl⟩ := ih (i + 1) e h
      exact ⟨j, l2, by omega, List.mem_cons_of_mem _ hl, hpl⟩
    · rcases pe with m | e2
      · rw [hp] at h
        simp only at h
        obtain ⟨j, l2, hij, hl, hpl⟩ := ih (i + 1) e h
        exact ⟨j, l2, by omega, List.mem_cons_of_mem _ hl, hpl⟩
      · rw [hp] at h
        simp only at h
        rcases List.mem_cons.mp h with h | h
        · exact ⟨i, l, le_refl _, List.mem_cons_self _ _, h ▸ hp⟩
        · obtain ⟨j, l2, hij, hl, hpl⟩ := ih (i + 1) e h
          exact ⟨j, l2, by omega, List.mem_cons_of_mem _ hl, hpl⟩

/-- Every problem the data-line loop collects comes from a failed
processLine at some position at or after the starting index. -/
theorem importLoop_mem_errors (hlen : Nat) (ix : ColIdx) :
    ∀ (ls : List (List Char)) (i : Nat) (m : List Char),
      m ∈ (importLoop hlen ix i ls).errors →
      ∃ j l, i ≤ j ∧ l ∈ ls ∧ processLine hlen ix j l = some (.error m) := by
  intro ls
  induction ls with
  | nil => intro i m h; simp [importLoop] at h
  | cons l rest ih =>
    intro i m h
    rw [importLoop] at h
    rcases hp : processLine hlen ix i l with _ | pe
    · rw [hp] at h
      obtain ⟨j, l2, hij, hl, hpl⟩ := ih (i + 1) m h
      exact ⟨j, l2, by omega, List.mem_cons_of_mem _ hl, hpl⟩
    · rcases pe with m2 | e2
      · rw [hp] at h
        simp only at h
        rcases List.mem_cons.mp h with h | h
        · exact ⟨i, l, le_refl _, List.mem_cons_self _ _, h ▸ hp⟩
        · obtain ⟨j, l2, hij, hl, hpl⟩ := ih (i + 1) m h
          exact ⟨j, l2, by omega, List.mem_cons_of_mem _ hl, hpl⟩
      · rw [hp] at h
        simp only at h
        obtain ⟨j, l2, hij, hl, hpl⟩ := ih (i + 1) m h
        exact ⟨j, l2, by omega, List.mem_cons_of_mem _ hl, hpl⟩

/-- Every record importExpenses returns comes from a successful processLine
under a successfully resolved header. -/
theorem importExpenses_mem_expenses (t : List Char) (e : Expense)
    (h : e ∈ (importExpenses t).expenses) :
    ∃ ix j l, colIdx t = some ix ∧ 1 ≤ j ∧
      processLine (headerCols t).length ix j l = some (.ok e) := by
  simp only [importExpenses] at h
  split at h
  · simp at h
  · rcases hc : colIdx t with _ | ix
    · rw [hc] at h; simp at h
    · rw [hc] at h
      simp only at h
      obtain ⟨j, l, hij, _, hpl⟩ :=
        importLoop_mem_expenses (headerCols t).length ix _ 1 e h
      exact ⟨ix, j, l, rfl, hij, hpl⟩

/-! ## Claim theorems about amount validation -/

/-- C4 (amended): importExpenses never stores a NaN amount — every stored
record's amount is a non-NaN parseFloat result — and a row passing the
earlier checks whose amount field parses to NaN yields exactly the Invalid
Amount problem for its line and no record; an amount field parsing to an
infinity, however, is accepted. -/
theorem importExpenses_amount_not_nan :
    (∀ (t : List Char), ∀ e ∈ (importExpenses t).expenses, e.amount ≠ .nan) ∧
    (∀ (hlen : Nat) (ix : ColIdx) (i : Nat) (raw : List Char),
      trim raw ≠ [] →
      ¬((splitCSVLine (trim raw)).length < hlen) →
      trim ((splitCSVLine (trim raw)).getD ix.idIx []) ≠ [] →
      dateOk (trim ((splitCSVLine (trim raw)).getD ix.dateIx [])) = true →
      parseFloat (trim ((splitCSVLine (trim raw)).getD ix.amountIx [])) = .nan →
      processLine hlen ix i raw = some (.error (lineTag i ++ "Invalid Amount".toList))) := by
  constructor
  · intro t e h
    obtain ⟨ix, j, l, _, _, hpl⟩ := importExpenses_mem_expenses t e h
    exact (processLine_ok_inv _ _ _ _ _ hpl).2.2.2.2.1
  · intro hlen ix i raw h1 h2 h3 h4 h5
    simp only [processLine]
    rw [if_neg h1, if_neg h2, if_neg h3, h4]
    rw [if_neg (by simp), if_pos h5]

/-- C4 counterexample: the amount field Infinity is not parseable as a
finite decimal, yet importExpenses accepts the row with no problem and
stores the non-finite amount posInf. -/
theorem importExpenses_infinity_cex :
    importExpenses infinityCSV
      = ⟨[{ id := ['1'], amount := .posInf, date := "2023-01-01".toList,
            category := "Food".toList, description := ['x'], tags := [] }], []⟩ := by
  decide

/-! ## Header resolution facts -/

/-- A name's index resolves to none exactly when the name is absent. -/
theorem idxOf_eq_none_iff (xs : List (List Char)) (v : List Char) :
    idxOf xs v = none ↔ v ∉ xs := by
  induction xs with
  | nil => simp [idxOf]
  | cons x rest ih =>
    rw [idxOf]
    by_cases h : x = v
    · simp [h]
    · simp only [if_neg h, Option.map_eq_none', ih, List.mem_cons]
      constructor
      · intro hnot hor
        rcases hor with h2 | h2
        · exact h h2.symm
        · exact hnot h2
      · intro hnot h2
        exact hnot (Or.inr h2)

/-- The column resolution fails exactly when some required column name is
missing from the header. -/
theorem colIdx_none_iff (t : List Char) :
    colIdx t = none ↔ ∃ c ∈ requiredCols, idxOf (headerCols t) c = none := by
  rw [colIdx]
  rcases h1 : idxOf (headerCols t) colId with _ | a <;>
    rcases h2 : idxOf (headerCols t) colDate with _ | b <;>
    rcases h3 : idxOf (headerCols t) colAmount with _ | c3 <;>
    rcases h4 : idxOf (headerCols t) colCategory with _ | d4 <;>
    rcases h5 : idxOf (headerCols t) colDescription with _ | e5 <;>
    rcases h6 : idxOf (headerCols t) colTags with _ | f6 <;>
    simp [requiredCols, h1, h2, h3, h4, h5, h6]

/-- Every row-level problem starts with the letter L of its line tag. -/
theorem lineTag_append_head (j : Nat) (r : List Char) :
    (lineTag j ++ r).head? = some 'L' := by
  rw [lineTag]
  rfl

/-! ## Claim theorem about wholesale failure -/

/-- C7: importExpenses fails wholesale — no records and exactly one
file-level problem — exactly when the input splits into fewer than two lines
or the header is missing one of the six required column names; the failure
condition depends only on which names occur among the header columns, never
on their positions. -/
theorem importExpenses_wholesale_iff :
    ∀ csvText : List Char,
      ((importExpenses csvText).expenses = [] ∧
        ((importExpenses csvText).errors = [emptyFileMsg] ∨
         (importExpenses csvText).errors = [missingColsMsg]))
      ↔ ((splitLines csvText).length < 2 ∨
         ∃ c ∈ requiredCols, c ∉ headerCols csvText) := by
  intro t
  by_cases hl : (splitLines t).length < 2
  · constructor
    · intro _
      exact Or.inl hl
    · intro _
      simp only [importExpenses, if_pos hl]
      simp
  · rcases hc : colIdx t with _ | ix
    · constructor
      · intro _
        refine Or.inr ?_
        obtain ⟨c, hmem, hnone⟩ := (colIdx_none_iff t).mp hc
        exact ⟨c, hmem, (idxOf_eq_none_iff _ _).mp hnone⟩
      · intro _
        simp only [importExpenses, if_neg hl, hc]
        simp
    · have hres : importExpenses t
          = importLoop (headerCols t).length ix 1 ((splitLines t).drop 1) := by
        simp only [importExpenses, if_neg hl, hc]
      constructor
      · rintro ⟨hexp, herr⟩
        exfalso
        have hmem : emptyFileMsg ∈ (importLoop (headerCols t).length ix 1
              ((splitLines t).drop 1)).errors ∨
            missingColsMsg ∈ (importLoop (headerCols t).length ix 1
              ((splitLines t).drop 1)).errors := by
          rw [hres] at herr
          rcases herr with h | h
          · exact Or.inl (h ▸ List.mem_cons_self _ _)
          · exact Or.inr (h ▸ List.mem_cons_self _ _)
        rcases hmem with h | h <;>
          obtain ⟨j, l, _, _, hpl⟩ := importLoop_mem_errors _ _ _ _ _ h <;>
          obtain ⟨r, hr⟩ := processLine_error_inv _ _ _ _ _ hpl
        · have := lineTag_append_head j r
          rw [← hr] at this
          exact absurd this (by decide)
        · have := lineTag_append_head j r
          rw [← hr] at this
          exact absurd this (by decide)
      · rintro (h | h)
        · exact absurd h hl
        · exfalso
          obtain ⟨c, hmem, habs⟩ := h
          have : colIdx t = none :=
            (colIdx_none_iff t).mpr ⟨c, hmem, (idxOf_eq_none_iff _ _).mpr habs⟩
          rw [hc] at this
          cases this

/-! ## The loop as an independent per-line map -/

/-- The data-line loop is exactly an independent pass over the enumerated
lines: records are the in-order successes, problems the in-order failures. -/
theorem importLoop_characterization (hlen : Nat) (ix : ColIdx) :
    ∀ (ls : List (List Char)) (i : Nat),
      importLoop hlen ix i ls
        = ⟨(ls.enumFrom i).filterMap (fun p =>
             match processLine hlen ix p.1 p.2 with
             | some (.ok e) => some e
             | _ => none),
           (ls.enumFrom i).filterMap (fun p =>
             match processLine hlen ix p.1 p.2 with
             | some (.error m) => some m
             | _ => none)⟩ := by
  intro ls
  induction ls with
  | nil => intro i; rfl
  | cons l rest ih =>
    intro i
    rw [importLoop, ih (i + 1)]
    rcases hp : processLine hlen ix i l with _ | pe
    · simp [hp]
    · rcases pe with m | e <;> simp [hp]

/-- C8: with at least two lines and a resolved header, importExpenses
processes every data line independently — the records are exactly the
in-order successes of processLine over the enumerated data lines, the
problems exactly its in-order failures, and every problem message starts
with the tag naming its line's 1-based number. -/
theorem importExpenses_partial_success :
    ∀ (csvText : List Char) (ix : ColIdx),
      2 ≤ (splitLines csvText).length →
      colIdx csvText = some ix →
      (importExpenses csvText
        = ⟨(((splitLines csvText).drop 1).enumFrom 1).filterMap (fun p =>
             match processLine (headerCols csvText).length ix p.1 p.2 with
             | some (.ok e) => some e
             | _ => none),
           (((splitLines csvText).drop 1).enumFrom 1).filterMap (fun p =>
             match processLine (headerCols csvText).length ix p.1 p.2 with
             | some (.error m) => some m
             | _ => none)⟩) ∧
      ∀ m ∈ (importExpenses csvText).errors, ∃ j r, 1 ≤ j ∧ m = lineTag j ++ r := by
  intro t ix h2 hc
  have hl : ¬(splitLines t).length < 2 := by omega
  have hres : importExpenses t
      = importLoop (headerCols t).length ix 1 ((splitLines t).drop 1) := by
    simp only [importExpenses, if_neg hl, hc]
  constructor
  · rw [hres, importLoop_characterization]
  · intro m hm
    rw [hres] at hm
    obtain ⟨j, l, hij, _, hpl⟩ := importLoop_mem_errors _ _ _ _ _ hm
    obtain ⟨r, hr⟩ := processLine_error_inv _ _ _ _ _ hpl
    exact ⟨j, r, hij, hr⟩

/-- C8 witness: the theorem applied to a concrete two-data-line input, one
row malformed and one valid, the hypotheses discharged by evaluation. -/
theorem importExpenses_partial_success_witness :
    (importExpenses partialCSV
        = ⟨(((splitLines partialCSV).drop 1).enumFrom 1).filterMap (fun p =>
             match processLine (headerCols partialCSV).length ⟨0, 1, 2, 3, 4, 5⟩ p.1 p.2 with
             | some (.ok e) => some e
             | _ => none),
           (((splitLines partialCSV).drop 1).enumFrom 1).filterMap (fun p =>
             match processLine (headerCols partialCSV).length ⟨0, 1, 2, 3, 4, 5⟩ p.1 p.2 with
             | some (.error m) => some m
             | _ => none)⟩) ∧
    ∀ m ∈ (importExpenses partialCSV).errors, ∃ j r, 1 ≤ j ∧ m = lineTag j ++ r :=
  importExpenses_partial_success partialCSV ⟨0, 1, 2, 3, 4, 5⟩ (by decide) (by decide)

/-! ## Trim idempotence -/

/-- Dropping a satisfied run twice is the same as dropping it once. -/
theorem dropWhile_idem (p : Char → Bool) (l : List Char) :
    (l.dropWhile p).dropWhile p = l.dropWhile p := by
  cases hd : l.dropWhile p with
  | nil => rfl
  | cons x xs =>
    have h := List.head?_dropWhile_not p l
    rw [hd] at h
    simp only [List.head?_cons] at h
    rw [List.dropWhile_cons, h]
    simp

/-- The head of a dropWhile result fails the predicate. -/
theorem head?_dropWhile_false (p : Char → Bool) (l : List Char) (x : Char)
    (h : (l.dropWhile p).head? = some x) : p x = false := by
  have h2 := List.head?_dropWhile_not p l
  rw [h] at h2
  exact h2

/-- A nonempty dropWhile result ends where the whole list ends. -/
theorem getLast?_dropWhile (p : Char → Bool) (l : List Char)
    (h : l.dropWhile p ≠ []) : (l.dropWhile p).getLast? = l.getLast? := by
  obtain ⟨t, ht⟩ := List.dropWhile_suffix p (l := l)
  conv_rhs => rw [← ht]
  rw [List.getLast?_append]
  cases hg : (l.dropWhile p).getLast? with
  | none => exact absurd (List.getLast?_eq_none_iff.mp hg) h
  | some y => rfl

/-- JavaScript trim is idempotent. -/
theorem trim_trim (s : List Char) : trim (trim s) = trim s := by
  unfold trim
  have h1 : ((s.dropWhile isSpaceChar).reverse.dropWhile isSpaceChar).reverse.dropWhile
      isSpaceChar
      = ((s.dropWhile isSpaceChar).reverse.dropWhile isSpaceChar).reverse := by
    cases hBr : ((s.dropWhile isSpaceChar).reverse.dropWhile isSpaceChar).reverse with
    | nil => simp [hBr]
    | cons x xs =>
      rw [List.dropWhile_cons]
      have hx : isSpaceChar x = false := by
        have hh : ((s.dropWhile isSpaceChar).reverse.dropWhile
            isSpaceChar).reverse.head? = some x := by rw [hBr]; rfl
        rw [List.head?_reverse] at hh
        have hne : (s.dropWhile isSpaceChar).reverse.dropWhile isSpaceChar ≠ [] := by
          intro hnil
          rw [hnil] at hBr
          cases hBr
        rw [getLast?_dropWhile _ _ hne, List.getLast?_reverse] at hh
        exact head?_dropWhile_false _ _ _ hh
      rw [hx]
      simp
  rw [h1, List.reverse_reverse, dropWhile_idem]

/-- No field the scanner yields — including the out-of-range default —
contains a double quote. -/
theorem getD_splitCSVLine_no_quote (l : List Char) (k : Nat) :
    '"' ∉ (splitCSVLine l).getD k [] := by
  rw [List.getD_eq_getElem?_getD]
  cases h : (splitCSVLine l)[k]? with
  | none => simp
  | some p =>
    simp only [Option.getD_some]
    exact mem_scanFields_no_quote l false p (List.getElem?_mem h)

/-! ## Claim theorem about field trimming -/

/-- C10: every record importExpenses returns has whitespace-trimmed fields:
id, date, category and description are fixed points of trim, and every tag
is a nonempty fixed point of trim — no leading or trailing whitespace of an
input row survives decoding. -/
theorem importExpenses_fields_trimmed :
    ∀ (csvText : List Char), ∀ e ∈ (importExpenses csvText).expenses,
      trim e.id = e.id ∧ trim e.date = e.date ∧ trim e.category = e.category ∧
      trim e.description = e.description ∧ ∀ t ∈ e.tags, trim t = t ∧ t ≠ [] := by
  intro text e h
  obtain ⟨ix, j, l, _, _, hpl⟩ := importExpenses_mem_expenses text e h
  obtain ⟨hid, hdate, _, _, _, hcat, hdesc, htags⟩ := processLine_ok_inv _ _ _ _ _ hpl
  refine ⟨?_, ?_, ?_, ?_, ?_⟩
  · rw [hid, trim_trim]
  · rw [hdate, trim_trim]
  · rw [hcat]
    split
    · decide
    · rw [trim_trim]
  · rw [hdesc, descriptionAdjust_no_quote, trim_trim]
    intro hq
    exact getD_splitCSVLine_no_quote _ _ (mem_of_mem_trim hq)
  · rw [htags]
    split
    · simp
    · intro t ht
      rw [List.mem_filter] at ht
      obtain ⟨hmem, hne⟩ := ht
      rw [List.mem_map] at hmem
      obtain ⟨t0, _, rfl⟩ := hmem
      refine ⟨trim_trim t0, ?_⟩
      simpa [List.isEmpty_iff] using hne

section ConcreteWitness

attribute [local semireducible] Rat.add Rat.mul Rat.inv Rat.sub

/-- C10 witness: the theorem applied to a concrete padded row and the record
it decodes to, the membership discharged by evaluation. -/
theorem importExpenses_fields_trimmed_witness :
    trimmedRec ∈ (importExpenses trimCSV).expenses ∧
    (trim trimmedRec.id = trimmedRec.id ∧ trim trimmedRec.date = trimmedRec.date ∧
      trim trimmedRec.category = trimmedRec.category ∧
      trim trimmedRec.description = trimmedRec.description ∧
      ∀ t ∈ trimmedRec.tags, trim t = t ∧ t ≠ []) :=
  ⟨by decide, importExpenses_fields_trimmed trimCSV trimmedRec (by decide)⟩

end ConcreteWitness

/-! ## Fixed points of trim -/

/-- A list whose head fails the predicate is unchanged by dropWhile. -/
theorem dropWhile_eq_self_of_head? (p : Char → Bool) (l : List Char)
    (h : ∀ c, l.head? = some c → p c = false) : l.dropWhile p = l := by
  cases l with
  | nil => rfl
  | cons x xs =>
    rw [List.dropWhile_cons, h x rfl]
    simp

/-- A string whose two ends are not whitespace is a fixed point of trim. -/
theorem trim_eq_self_of (s : List Char)
    (hh : ∀ c, s.head? = some c → isSpaceChar c = false)
    (hl : ∀ c, s.getLast? = some c → isSpaceChar c = false) :
    trim s = s := by
  unfold trim
  rw [dropWhile_eq_self_of_head? _ _ hh]
  rw [dropWhile_eq_self_of_head? _ s.reverse
    (fun c hc => hl c (by rwa [List.head?_reverse] at hc))]
  exact s.reverse_reverse

/-- Dropping a satisfied head strictly shortens the list. -/
theorem length_dropWhile_lt (p : Char → Bool) (c : Char) (t : List Char)
    (hc : p c = true) : ((c :: t).dropWhile p).length < (c :: t).length := by
  rw [List.dropWhile_cons, hc]
  simp only [if_true]
  have := (List.dropWhile_sublist (l := t) p).length_le
  simp only [List.length_cons]
  omega

/-- The length of a trim result is at most the length of the first
dropWhile pass. -/
theorem length_trim_le_dropWhile (s : List Char) :
    (trim s).length ≤ (s.dropWhile isSpaceChar).length := by
  unfold trim
  rw [List.length_reverse]
  have := (List.dropWhile_sublist (l := (s.dropWhile isSpaceChar).reverse)
    isSpaceChar).length_le
  simpa using this

/-- A fixed point of trim does not start with whitespace. -/
theorem trim_fixed_head (s : List Char) (h : trim s = s) :
    ∀ c, s.head? = some c → isSpaceChar c = false := by
  intro c hc
  by_contra hcon
  rw [Bool.not_eq_false] at hcon
  cases s with
  | nil => cases hc
  | cons x xs =>
    rw [List.head?_cons, Option.some.injEq] at hc
    have hx : isSpaceChar x = true := by rw [hc]; exact hcon
    have h1 := length_trim_le_dropWhile (x :: xs)
    have h2 := length_dropWhile_lt isSpaceChar x xs hx
    rw [h] at h1
    omega

/-- A fixed point of trim does not end with whitespace. -/
theorem trim_fixed_getLast (s : List Char) (h : trim s = s) :
    ∀ c, s.getLast? = some c → isSpaceChar c = false := by
  intro c hc
  by_contra hcon
  rw [Bool.not_eq_false] at hcon
  rcases hA : s.dropWhile isSpaceChar with _ | ⟨x, xs⟩
  · have hs : trim s = [] := by unfold trim; rw [hA]; rfl
    rw [h] at hs
    rw [hs] at hc
    cases hc
  · have hAne : s.dropWhile isSpaceChar ≠ [] := by rw [hA]; simp
    have hlast : (s.dropWhile isSpaceChar).getLast? = some c := by
      rw [getLast?_dropWhile _ _ hAne, hc]
    have hhead : (s.dropWhile isSpaceChar).reverse.head? = some c := by
      rw [List.head?_reverse, hlast]
    rcases hrev : (s.dropWhile isSpaceChar).reverse with _ | ⟨y, ys⟩
    · rw [hrev] at hhead; cases hhead
    · rw [hrev] at hhead
      rw [List.head?_cons, Option.some.injEq] at hhead
      have hy : isSpaceChar y = true := by rw [hhead]; exact hcon
      have h1 : (trim s).length < (s.dropWhile isSpaceChar).length := by
        unfold trim
        rw [List.length_reverse, hrev]
        have h2 := length_dropWhile_lt isSpaceChar y ys hy
        have h3 : (y :: ys).length = (s.dropWhile isSpaceChar).length := by
          rw [← hrev, List.length_reverse]
        omega
      have h4 := (List.dropWhile_sublist (l := s) isSpaceChar).length_le
      rw [h] at h1
      omega

/-! ## Split and join inverses -/

/-- A separator-free piece followed by the separator splits off whole. -/
theorem splitSep_append_sep (sep : Char) (x rest : List Char) (hx : sep ∉ x) :
    splitSep sep (x ++ sep :: rest) = x :: splitSep sep rest := by
  induction x with
  | nil => rw [List.nil_append, splitSep, if_pos rfl]
  | cons c x2 ih =>
    have hc : c ≠ sep := fun h => hx (h ▸ List.mem_cons_self _ _)
    rw [List.cons_append, splitSep, if_neg hc,
      ih (fun h => hx (List.mem_cons_of_mem _ h)), consHead]

/-- A separator-free string does not split. -/
theorem splitSep_single (sep : Char) (x : List Char) (hx : sep ∉ x) :
    splitSep sep x = [x] := by
  induction x with
  | nil => rfl
  | cons c x2 ih =>
    have hc : c ≠ sep := fun h => hx (h ▸ List.mem_cons_self _ _)
    rw [splitSep, if_neg hc, ih (fun h => hx (List.mem_cons_of_mem _ h)), consHead]

/-- Splitting inverts joining for a nonempty list of separator-free
pieces. -/
theorem splitSep_joinSep (sep : Char) (ts : List (List Char)) (hne : ts ≠ [])
    (h : ∀ t ∈ ts, sep ∉ t) :
    splitSep sep (joinSep sep ts) = ts := by
  induction ts with
  | nil => exact absurd rfl hne
  | cons x rest ih =>
    cases rest with
    | nil => exact splitSep_single sep x (h x (List.mem_cons_self _ _))
    | cons y rest2 =>
      rw [joinSep, splitSep_append_sep sep x _ (h x (List.mem_cons_self _ _)),
        ih (by simp) (fun t ht => h t (List.mem_cons_of_mem _ ht))]

/-- Every character of a join is the separator or a character of a piece. -/
theorem mem_joinSep (sep : Char) (ts : List (List Char)) (c : Char)
    (h : c ∈ joinSep sep ts) : c = sep ∨ ∃ t ∈ ts, c ∈ t := by
  induction ts with
  | nil => cases h
  | cons x rest ih =>
    cases rest with
    | nil => exact Or.inr ⟨x, List.mem_cons_self _ _, h⟩
    | cons y rest2 =>
      rw [joinSep] at h
      rcases List.mem_append.mp h with h | h
      · exact Or.inr ⟨x, List.mem_cons_self _ _, h⟩
      · rcases List.mem_cons.mp h with h | h
        · exact Or.inl h
        · rcases ih h with h | ⟨t, ht, hc⟩
          · exact Or.inl h
          · exact Or.inr ⟨t, List.mem_cons_of_mem _ ht, hc⟩

/-- A join of pieces whose first piece is nonempty starts with that piece's
first character. -/
theorem joinSep_head? (sep : Char) (x : List Char) (rest : List (List Char))
    (hx : x ≠ []) : (joinSep sep (x :: rest)).head? = x.head? := by
  cases rest with
  | nil => rfl
  | cons y rest2 =>
    rw [joinSep, List.head?_append]
    cases x with
    | nil => exact absurd rfl hx
    | cons c x2 => rfl

/-- A join of nonempty pieces ends in the last character of its last piece;
if no piece ends in whitespace, the join does not end in whitespace. -/
theorem joinSep_getLast_not_space (sep : Char)
    (ts : List (List Char)) (hts : ts ≠ [])
    (h : ∀ t ∈ ts, t ≠ [] ∧ ∀ c, t.getLast? = some c → isSpaceChar c = false) :
    ∀ c, (joinSep sep ts).getLast? = some c → isSpaceChar c = false := by
  induction ts with
  | nil => exact absurd rfl hts
  | cons x rest ih =>
    cases rest with
    | nil =>
      intro c hc
      exact (h x (List.mem_cons_self _ _)).2 c hc
    | cons y rest2 =>
      intro c hc
      rw [joinSep, List.getLast?_append] at hc
      have hjoin : (joinSep sep (y :: rest2)) ≠ [] := by
        have hy := (h y (List.mem_cons_of_mem _ (List.mem_cons_self _ _))).1
        cases rest2 with
        | nil => simpa [joinSep] using hy
        | cons z r3 =>
          rw [joinSep]
          cases y with
          | nil => exact absurd rfl hy
          | cons c0 y2 => simp
      rcases hg : (joinSep sep (y :: rest2)).getLast? with _ | d
      · exact absurd (List.getLast?_eq_none_iff.mp hg) hjoin
      · have : (sep :: joinSep sep (y :: rest2)).getLast? = some d := by
          rw [List.getLast?_cons, hg]
          rfl
        rw [this, Option.or_some, Option.some.injEq] at hc
        rw [← hc]
        exact ih (by simp) (fun t ht => h t (List.mem_cons_of_mem _ ht)) d hg

/-! ## Line splitting inverts line joining -/

/-- A terminator-free string is one whole line. -/
theorem splitLines_single (x : List Char) (h1 : '\n' ∉ x) (h2 : '\r' ∉ x) :
    splitLines x = [x] := by
  induction x with
  | nil => rfl
  | cons c x2 ih =>
    have hc1 : c ≠ '\n' := fun h => h1 (h ▸ List.mem_cons_self _ _)
    have hc2 : c ≠ '\r' := fun h => h2 (h ▸ List.mem_cons_self _ _)
    rw [splitLines.eq_def]
    split
    · rename_i heq; cases heq
    · rename_i rest heq
      rw [List.cons.injEq] at heq
      exact absurd heq.1 hc1
    · rename_i rest heq
      rw [List.cons.injEq] at heq
      exact absurd heq.1 hc2
    · rename_i c2 rest heq
      rw [List.cons.injEq] at heq
      obtain ⟨heq1, heq2⟩ := heq
      subst heq1
      rw [← heq2, ih (fun h => h1 (List.mem_cons_of_mem _ h))
        (fun h => h2 (List.mem_cons_of_mem _ h)), consHead]

/-- A terminator-free line followed by LF splits off whole. -/
theorem splitLines_append (x z : List Char) (h1 : '\n' ∉ x) (h2 : '\r' ∉ x) :
    splitLines (x ++ '\n' :: z) = x :: splitLines z := by
  induction x with
  | nil => rw [List.nil_append, splitLines]
  | cons c x2 ih =>
    have hc1 : c ≠ '\n' := fun h => h1 (h ▸ List.mem_cons_self _ _)
    have hc2 : c ≠ '\r' := fun h => h2 (h ▸ List.mem_cons_self _ _)
    rw [List.cons_append, splitLines.eq_def]
    split
    · rename_i heq; cases heq
    · rename_i rest heq
      rw [List.cons.injEq] at heq
      exact absurd heq.1 hc1
    · rename_i rest heq
      rw [List.cons.injEq] at heq
      exact absurd heq.1 hc2
    · rename_i c2 rest heq
      rw [List.cons.injEq] at heq
      obtain ⟨heq1, heq2⟩ := heq
      subst heq1
      rw [← heq2, ih (fun h => h1 (List.mem_cons_of_mem _ h))
        (fun h => h2 (List.mem_cons_of_mem _ h)), consHead]

/-- Splitting on line terminators inverts joining with LF when no row
contains a terminator. -/
theorem splitLines_joinSep (rows : List (List Char)) (hne : rows ≠ [])
    (h : ∀ r ∈ rows, '\n' ∉ r ∧ '\r' ∉ r) :
    splitLines (joinSep '\n' rows) = rows := by
  induction rows with
  | nil => exact absurd rfl hne
  | cons x rest ih =>
    cases rest with
    | nil =>
      exact splitLines_single x (h x (List.mem_cons_self _ _)).1
        (h x (List.mem_cons_self _ _)).2
    | cons y rest2 =>
      rw [joinSep, splitLines_append x _ (h x (List.mem_cons_self _ _)).1
        (h x (List.mem_cons_self _ _)).2,
        ih (by simp) (fun r hr => h r (List.mem_cons_of_mem _ hr))]

/-! ## Quote escaping and character classes -/

/-- Escaping does nothing to a quote-free string. -/
theorem escapeQuotes_no_quote (d : List Char) (h : '"' ∉ d) :
    escapeQuotes d = d := by
  induction d with
  | nil => rfl
  | cons c r ih =>
    have hc : c ≠ '"' := fun hq => h (hq ▸ List.mem_cons_self _ _)
    rw [escapeQuotes.eq_def]
    split
    · rename_i heq; cases heq
    · rename_i rest heq
      rw [List.cons.injEq] at heq
      exact absurd heq.1 hc
    · rename_i c2 rest heq
      rw [List.cons.injEq] at heq
      obtain ⟨heq1, heq2⟩ := heq
      subst heq1
      rw [← heq2, ih (fun hq => h (List.mem_cons_of_mem _ hq))]

/-- Every character of an escape result is a quote or a source character. -/
theorem mem_escapeQuotes (d : List Char) (c : Char) (h : c ∈ escapeQuotes d) :
    c = '"' ∨ c ∈ d := by
  induction d with
  | nil => cases h
  | cons x r ih =>
    rw [escapeQuotes.eq_def] at h
    split at h
    · rename_i heq; cases heq
    · rename_i rest heq
      rw [List.cons.injEq] at heq
      obtain ⟨heq1, heq2⟩ := heq
      rcases List.mem_cons.mp h with h | h
      · exact Or.inl h
      · rcases List.mem_cons.mp h with h | h
        · exact Or.inl h
        · rcases ih (heq2 ▸ h) with h | h
          · exact Or.inl h
          · exact Or.inr (List.mem_cons_of_mem _ h)
    · rename_i c2 rest heq
      rw [List.cons.injEq] at heq
      obtain ⟨heq1, heq2⟩ := heq
      rcases List.mem_cons.mp h with h | h
      · exact Or.inr (h ▸ heq1 ▸ List.mem_cons_self _ _)
      · rcases ih (heq2 ▸ h) with h | h
        · exact Or.inl h
        · exact Or.inr (List.mem_cons_of_mem _ h)

/-- Every character of an encoded description is a quote or a character of
the description. -/
theorem mem_encodeDescription (d : List Char) (c : Char)
    (h : c ∈ encodeDescription d) : c = '"' ∨ c ∈ d := by
  rw [encodeDescription] at h
  split at h
  · rcases List.mem_cons.mp h with h | h
    · exact Or.inl h
    · rcases List.mem_append.mp h with h | h
      · exact mem_escapeQuotes d c h
      · exact Or.inl (List.mem_singleton.mp h)
  · exact Or.inr h

/-- A decimal digit character is not whitespace and is none of the special
characters of the CSV surface. -/
theorem isDigit_clean (c : Char) (h : c.isDigit = true) :
    isSpaceChar c = false ∧ c ≠ ',' ∧ c ≠ '"' ∧ c ≠ '\n' ∧ c ≠ '\r' ∧ c ≠ ';' := by
  simp only [Char.isDigit, Bool.and_eq_true, decide_eq_true_eq] at h
  obtain ⟨h1, h2⟩ := h
  have hv1 : (48 : Nat) ≤ c.val.toNat := BitVec.le_def.mp (UInt32.le_def.mp h1)
  have hv2 : c.val.toNat ≤ (57 : Nat) := BitVec.le_def.mp (UInt32.le_def.mp h2)
  have hne : ∀ (d : Char) (n : Nat), d.val.toNat = n →
      (n < 48 ∨ 57 < n) → c ≠ d := by
    intro d n hd hn hcd
    rw [hcd, hd] at hv1 hv2
    omega
  have hsp : c ≠ ' ' := hne ' ' 32 rfl (by omega)
  have htab : c ≠ '\t' := hne '\t' 9 rfl (by omega)
  have hnl : c ≠ '\n' := hne '\n' 10 rfl (by omega)
  have hcr : c ≠ '\r' := hne '\r' 13 rfl (by omega)
  have hvt : c ≠ '\x0b' := hne '\x0b' 11 rfl (by omega)
  have hff : c ≠ '\x0c' := hne '\x0c' 12 rfl (by omega)
  refine ⟨?_, hne ',' 44 rfl (by omega), hne '"' 34 rfl (by omega),
    hnl, hcr, hne ';' 59 rfl (by omega)⟩
  simp [isSpaceChar, hsp, htab, hnl, hcr, hvt, hff]

/-- A string passing the strict date pattern is nonempty, trimmed and free
of the special characters. -/
theorem dateOk_clean (d : List Char) (h : dateOk d = true) :
    d ≠ [] ∧ trim d = d ∧ ',' ∉ d ∧ '"' ∉ d ∧ '\n' ∉ d ∧ '\r' ∉ d := by
  rw [dateOk.eq_def] at h
  split at h
  · rename_i a b c d4 e f g h8 i j
    simp only [Bool.and_eq_true, beq_iff_eq] at h
    obtain ⟨⟨⟨⟨⟨⟨⟨⟨⟨h0, h1⟩, h2⟩, h3⟩, h4⟩, h5⟩, h6⟩, h7⟩, h8b⟩, h9⟩ := h
    have hmem : ∀ x ∈ ([a, b, c, d4, e, f, g, h8, i, j] : List Char),
        x.isDigit = true ∨ x = '-' := by
      intro x hx
      simp only [List.mem_cons, List.not_mem_nil, or_false] at hx
      rcases hx with rfl | rfl | rfl | rfl | rfl | rfl | rfl | rfl | rfl | rfl
      exacts [Or.inl h0, Or.inl h1, Or.inl h2, Or.inl h3, Or.inr h4,
        Or.inl h5, Or.inl h6, Or.inr h7, Or.inl h8b, Or.inl h9]
    have hnotin : ∀ ch : Char, ch.isDigit = false → ch ≠ '-' →
        ch ∉ ([a, b, c, d4, e, f, g, h8, i, j] : List Char) := by
      intro ch hdig hdash hmem2
      rcases hmem ch hmem2 with hd | hd
      · rw [hdig] at hd; cases hd
      · exact hdash hd
    refine ⟨by simp, ?_, hnotin ',' (by decide) (by decide),
      hnotin '"' (by decide) (by decide), hnotin '\n' (by decide) (by decide),
      hnotin '\r' (by decide) (by decide)⟩
    apply trim_eq_self_of
    · intro x hx
      rw [List.head?_cons, Option.some.injEq] at hx
      rw [← hx]
      exact (isDigit_clean a h0).1
    · intro x hx
      rw [show ([a, b, c, d4, e, f, g, h8, i, j] : List Char).getLast?
          = some j from rfl, Option.some.injEq] at hx
      rw [← hx]
      exact (isDigit_clean j h9).1
  · cases h

/-! ## Structure of an encoded row -/

/-- An append ending in a cons is never empty. -/
theorem append_cons_ne_nil (l : List Char) (c : Char) (m : List Char) :
    l ++ c :: m ≠ [] := by
  cases l <;> simp

/-- The last element of an append ending in a cons lies in the cons part. -/
theorem getLast?_append_cons (l : List Char) (c : Char) (m : List Char) :
    (l ++ c :: m).getLast? = (c :: m).getLast? := by
  rw [List.getLast?_append]
  cases hg : (c :: m).getLast? with
  | none => exact absurd (List.getLast?_eq_none_iff.mp hg) (by simp)
  | some y => rw [Option.or_some]

/-- The last element of a cons with nonempty tail is the tail's last. -/
theorem getLast?_cons_ne (c : Char) (X : List Char) (hX : X ≠ []) :
    (c :: X).getLast? = X.getLast? := by
  cases X with
  | nil => exact absurd rfl hX
  | cons y ys => exact List.getLast?_cons_cons

/-- A join starting from a nonempty piece is nonempty. -/
theorem joinSep_ne_nil (sep : Char) (x : List Char) (rest : List (List Char))
    (hx : x ≠ []) : joinSep sep (x :: rest) ≠ [] := by
  cases rest with
  | nil => simpa [joinSep] using hx
  | cons y r2 =>
    rw [joinSep]
    exact append_cons_ne_nil _ _ _

/-- Opening quote: the scanner turns the flag on and drops the quote. -/
theorem scanFields_open_quote (z : List Char) :
    scanFields false ('"' :: z) = scanFields true z := by
  rw [scanFields, if_pos rfl]
  rfl

/-- Every character of a row is a separator, a quote added by the
description encoding, or a character of one of the record's fields. -/
theorem mem_csvRow (printNum : JSNum → List Char) (e : Expense) (c : Char)
    (hc : c ∈ csvRow printNum e) :
    c = ',' ∨ c ∈ e.id ∨ c ∈ e.date ∨ c ∈ printNum e.amount ∨
    c ∈ e.category ∨ c = '"' ∨ c ∈ e.description ∨ c = ';' ∨
    ∃ t ∈ e.tags, c ∈ t := by
  rw [csvRow] at hc
  rcases List.mem_append.mp hc with h | h
  · exact Or.inr (Or.inl h)
  rcases List.mem_cons.mp h with h | h
  · exact Or.inl h
  rcases List.mem_append.mp h with h | h
  · exact Or.inr (Or.inr (Or.inl h))
  rcases List.mem_cons.mp h with h | h
  · exact Or.inl h
  rcases List.mem_append.mp h with h | h
  · exact Or.inr (Or.inr (Or.inr (Or.inl h)))
  rcases List.mem_cons.mp h with h | h
  · exact Or.inl h
  rcases List.mem_append.mp h with h | h
  · exact Or.inr (Or.inr (Or.inr (Or.inr (Or.inl h))))
  rcases List.mem_cons.mp h with h | h
  · exact Or.inl h
  rcases List.mem_append.mp h with h | h
  · rcases mem_encodeDescription _ _ h with h | h
    · exact Or.inr (Or.inr (Or.inr (Or.inr (Or.inr (Or.inl h)))))
    · exact Or.inr (Or.inr (Or.inr (Or.inr (Or.inr (Or.inr (Or.inl h))))))
  rcases List.mem_cons.mp h with h | h
  · exact Or.inl h
  rcases mem_joinSep ';' e.tags c h with h | h
  · exact Or.inr (Or.inr (Or.inr (Or.inr (Or.inr (Or.inr (Or.inr (Or.inl h)))))))
  · exact Or.inr (Or.inr (Or.inr (Or.inr (Or.inr (Or.inr (Or.inr (Or.inr h)))))))

/-- A safe record's row contains no line terminator. -/
theorem csvRow_clean (printNum : JSNum → List Char) (e : Expense)
    (hsafe : csvSafe e) (hnum : printNumOk printNum e) :
    '\n' ∉ csvRow printNum e ∧ '\r' ∉ csvRow printNum e := by
  obtain ⟨hidne, hidns, hidtr, hdate, hcatne, hcatns, hcattr,
    hdq, hdn, hdr, hdtr, htags⟩ := hsafe
  obtain ⟨hpf, hnan, hpns, hptr⟩ := hnum
  have hdatec := dateOk_clean e.date hdate
  constructor <;> intro hmem <;>
    rcases mem_csvRow printNum e _ hmem with
      h | h | h | h | h | h | h | h | ⟨t, ht, h⟩
  · exact absurd h (by decide)
  · exact hidns.2.2.1 h
  · exact hdatec.2.2.2.2.1 h
  · exact hpns.2.2.1 h
  · exact hcatns.2.2.1 h
  · exact absurd h (by decide)
  · exact hdn h
  · exact absurd h (by decide)
  · exact (htags t ht).2.1.2.2.1 h
  · exact absurd h (by decide)
  · exact hidns.2.2.2 h
  · exact hdatec.2.2.2.2.2 h
  · exact hpns.2.2.2 h
  · exact hcatns.2.2.2 h
  · exact absurd h (by decide)
  · exact hdr h
  · exact absurd h (by decide)
  · exact (htags t ht).2.1.2.2.2 h

/-- The tag join contains neither a comma nor a quote. -/
theorem joinSep_tags_no_special (tags : List (List Char))
    (h : ∀ t ∈ tags, noSpecial t) :
    ',' ∉ joinSep ';' tags ∧ '"' ∉ joinSep ';' tags := by
  constructor <;> intro hm <;>
    rcases mem_joinSep ';' tags _ hm with h2 | ⟨t, ht, hc⟩
  · exact absurd h2 (by decide)
  · exact (h t ht).1 hc
  · exact absurd h2 (by decide)
  · exact (h t ht).2.1 hc

/-- The tag join of nonempty trimmed tags is a fixed point of trim. -/
theorem trim_joinSep_tags (tags : List (List Char))
    (h : ∀ t ∈ tags, t ≠ [] ∧ trim t = t) :
    trim (joinSep ';' tags) = joinSep ';' tags := by
  cases tags with
  | nil => rfl
  | cons t ts =>
    apply trim_eq_self_of
    · intro c hc
      rw [joinSep_head? ';' t ts (h t (List.mem_cons_self _ _)).1] at hc
      rcases ht0 : t with _ | ⟨c0, t2⟩
      · exact absurd ht0 (h t (List.mem_cons_self _ _)).1
      · rw [ht0, List.head?_cons, Option.some.injEq] at hc
        rw [← hc]
        exact trim_fixed_head t (h t (List.mem_cons_self _ _)).2 c0 (by rw [ht0]; rfl)
    · exact joinSep_getLast_not_space ';' (t :: ts) (by simp)
        (fun tag htg => ⟨(h tag htg).1, trim_fixed_getLast tag (h tag htg).2⟩)

/-- A safe record's row is a fixed point of trim. -/
theorem csvRow_trim (printNum : JSNum → List Char) (e : Expense)
    (hsafe : csvSafe e) (_hnum : printNumOk printNum e) :
    trim (csvRow printNum e) = csvRow printNum e := by
  obtain ⟨hidne, hidns, hidtr, hdate, hcatne, hcatns, hcattr,
    hdq, hdn, hdr, hdtr, htags⟩ := hsafe
  apply trim_eq_self_of
  · intro c hc
    rcases hid : e.id with _ | ⟨i0, irest⟩
    · exact absurd hid hidne
    · rw [csvRow, hid, List.cons_append, List.head?_cons, Option.some.injEq] at hc
      rw [← hc]
      exact trim_fixed_head e.id hidtr i0 (by rw [hid]; rfl)
  · intro c hc
    have hrow : (csvRow printNum e).getLast?
        = ((',' :: joinSep ';' e.tags) : List Char).getLast? := by
      rw [csvRow, getLast?_append_cons, getLast?_cons_ne _ _ (append_cons_ne_nil _ _ _),
        getLast?_append_cons, getLast?_cons_ne _ _ (append_cons_ne_nil _ _ _),
        getLast?_append_cons, getLast?_cons_ne _ _ (append_cons_ne_nil _ _ _),
        getLast?_append_cons, getLast?_cons_ne _ _ (append_cons_ne_nil _ _ _),
        getLast?_append_cons]
    rw [hrow] at hc
    rcases htag : e.tags with _ | ⟨t, ts⟩
    · rw [htag] at hc
      rw [show joinSep ';' ([] : List (List Char)) = [] from rfl,
        List.getLast?_singleton, Option.some.injEq] at hc
      rw [← hc]
      decide
    · rw [htag] at hc
      have ht1 : t ∈ e.tags := htag ▸ List.mem_cons_self _ _
      have hTne : joinSep ';' (t :: ts) ≠ [] :=
        joinSep_ne_nil ';' t ts (htags t ht1).1
      rw [getLast?_cons_ne _ _ hTne] at hc
      refine joinSep_getLast_not_space ';' (t :: ts) (by simp) ?_ c hc
      intro tag htg
      have htg2 : tag ∈ e.tags := htag ▸ htg
      exact ⟨(htags tag htg2).1, trim_fixed_getLast tag (htags tag htg2).2.2.2⟩

/-- Scanning a safe record's row recovers exactly the six emitted fields,
the description unwrapped when it was quoted. -/
theorem splitCSVLine_csvRow (printNum : JSNum → List Char) (e : Expense)
    (hsafe : csvSafe e) (hnum : printNumOk printNum e) :
    splitCSVLine (csvRow printNum e)
      = [e.id, e.date, printNum e.amount, e.category, e.description,
         joinSep ';' e.tags] := by
  obtain ⟨hidne, hidns, hidtr, hdate, hcatne, hcatns, hcattr,
    hdq, hdn, hdr, hdtr, htags⟩ := hsafe
  obtain ⟨hpf, hnan, hpns, hptr⟩ := hnum
  have hdatec := dateOk_clean e.date hdate
  have htagsns := joinSep_tags_no_special e.tags (fun t ht => (htags t ht).2.1)
  rw [csvRow]
  show scanFields false _ = _
  rw [scanFields_false_comma _ _ hidns.1 hidns.2.1,
    scanFields_false_comma _ _ hdatec.2.2.1 hdatec.2.2.2.1,
    scanFields_false_comma _ _ hpns.1 hpns.2.1,
    scanFields_false_comma _ _ hcatns.1 hcatns.2.1]
  by_cases hcomma : ',' ∈ e.description
  · rw [encodeDescription, if_pos (Or.inl hcomma), escapeQuotes_no_quote _ hdq]
    have hassoc : (('"' :: (e.description ++ ['"'])) ++ ',' :: joinSep ';' e.tags)
        = '"' :: (e.description ++ '"' :: ',' :: joinSep ';' e.tags) := by
      simp
    rw [hassoc, scanFields_open_quote, scanFields_true_comma _ _ hdq,
      scanFields_false_end _ htagsns.1 htagsns.2]
  · rw [encodeDescription, if_neg (fun hor => hor.elim hcomma hdq),
      scanFields_false_comma _ _ hcomma hdq,
      scanFields_false_end _ htagsns.1 htagsns.2]

/-! ## One safe row decodes back to its record -/

/-- Decoding the encoded row of a safe record succeeds and returns the
record unchanged, at any line position. -/
theorem processLine_csvRow (printNum : JSNum → List Char) (e : Expense)
    (hsafe : csvSafe e) (hnum : printNumOk printNum e) (i : Nat) :
    processLine 6 ⟨0, 1, 2, 3, 4, 5⟩ i (csvRow printNum e) = some (.ok e) := by
  have hrowne : csvRow printNum e ≠ [] := by
    rw [csvRow]
    rcases hid : e.id with _ | ⟨i0, irest⟩
    · exact absurd hid hsafe.1
    · simp
  have htrim := csvRow_trim printNum e hsafe hnum
  have hsplit := splitCSVLine_csvRow printNum e hsafe hnum
  obtain ⟨hidne, hidns, hidtr, hdate, hcatne, hcatns, hcattr,
    hdq, hdn, hdr, hdtr, htags⟩ := hsafe
  obtain ⟨hpf, hnan, hpns, hptr⟩ := hnum
  have hdatec := dateOk_clean e.date hdate
  have htagtr : trim (joinSep ';' e.tags) = joinSep ';' e.tags :=
    trim_joinSep_tags e.tags (fun t ht => ⟨(htags t ht).1, (htags t ht).2.2.2⟩)
  simp only [processLine, htrim, hsplit]
  rw [if_neg hrowne]
  simp only [List.length_cons, List.length_nil, List.getD_cons_zero,
    List.getD_cons_succ]
  rw [if_neg (by omega)]
  rw [hidtr, hdatec.2.1, hptr, hcattr, hdtr, htagtr]
  rw [if_neg hidne, hdate]
  rw [if_neg (by simp)]
  rw [hpf, if_neg hnan]
  rw [descriptionAdjust_no_quote _ hdq, if_neg hcatne]
  rcases htag : e.tags with _ | ⟨t, ts⟩
  · rw [show joinSep ';' ([] : List (List Char)) = [] from rfl, if_pos rfl]
    show some (Except.ok (Expense.mk e.id e.amount e.date e.category e.description []))
      = some (Except.ok e)
    rw [← htag]
  · have hTne : joinSep ';' (t :: ts) ≠ [] :=
      joinSep_ne_nil ';' t ts (htags t (htag ▸ List.mem_cons_self _ _)).1
    rw [if_neg hTne]
    rw [splitSep_joinSep ';' (t :: ts) (by simp)
      (fun tg htg => (htags tg (htag ▸ htg)).2.2.1)]
    have hmap : (t :: ts).map trim = t :: ts :=
      List.map_congr_left (fun tg htg => (htags tg (htag ▸ htg)).2.2.2) |>.trans
        (List.map_id _)
    rw [hmap]
    rw [List.filter_eq_self.mpr (fun tg htg => by
      simpa [List.isEmpty_iff] using (htags tg (htag ▸ htg)).1)]
    show some (Except.ok (Expense.mk e.id e.amount e.date e.category e.description
      (t :: ts))) = some (Except.ok e)
    rw [← htag]

/-- A loop over rows that all decode successfully returns exactly the
records, with no problems. -/
theorem importLoop_all_ok (hlen : Nat) (ix : ColIdx) (f : Expense → List Char) :
    ∀ (es : List Expense),
      (∀ e ∈ es, ∀ i, processLine hlen ix i (f e) = some (.ok e)) →
      ∀ i, importLoop hlen ix i (es.map f) = ⟨es, []⟩ := by
  intro es
  induction es with
  | nil => intro _ i; rfl
  | cons e rest ih =>
    intro h i
    rw [List.map_cons, importLoop,
      ih (fun x hx j => h x (List.mem_cons_of_mem _ hx) j) (i + 1),
      h e (List.mem_cons_self _ _) i]

/-- Splitting the generated text yields the header row followed by the
record rows. -/
theorem splitLines_generateCSV (printNum : JSNum → List Char) (xs : List Expense)
    (hrows : ∀ e ∈ xs, '\n' ∉ csvRow printNum e ∧ '\r' ∉ csvRow printNum e) :
    splitLines (generateCSVString printNum xs)
      = headerRow :: xs.map (csvRow printNum) := by
  rw [generateCSVString]
  apply splitLines_joinSep
  · simp
  · intro r hr
    rcases List.mem_cons.mp hr with rfl | hr
    · exact ⟨by decide, by decide⟩
    · obtain ⟨e, he, rfl⟩ := List.mem_map.mp hr
      exact hrows e he

/-- When the first line is the canonical header, the header columns are the
six required names in order and every column resolves at its emitted
position. -/
theorem colIdx_of_headerRow (text : List Char) (rows : List (List Char))
    (hsplit : splitLines text = headerRow :: rows) :
    headerCols text = requiredCols ∧ colIdx text = some ⟨0, 1, 2, 3, 4, 5⟩ := by
  have h1 : headerCols text = requiredCols := by
    rw [headerCols, hsplit, List.headD_cons]
    decide
  refine ⟨h1, ?_⟩
  rw [colIdx, h1]
  decide

/-- Decoding an encoded nonempty safe collection returns exactly the
collection, in order, with no problems at all. -/
theorem importExpenses_generateCSV (printNum : JSNum → List Char)
    (xs : List Expense) (hxs : xs ≠ [])
    (hsafe : ∀ e ∈ xs, csvSafe e) (hnum : ∀ e ∈ xs, printNumOk printNum e) :
    importExpenses (generateCSVString printNum xs) = ⟨xs, []⟩ := by
  have hrows : ∀ e ∈ xs, '\n' ∉ csvRow printNum e ∧ '\r' ∉ csvRow printNum e :=
    fun e he => csvRow_clean printNum e (hsafe e he) (hnum e he)
  have hsplit := splitLines_generateCSV printNum xs hrows
  obtain ⟨hcols, hidx⟩ := colIdx_of_headerRow _ _ hsplit
  have hlen2 : ¬(headerRow :: xs.map (csvRow printNum)).length < 2 := by
    simp only [List.length_cons, List.length_map]
    cases xs with
    | nil => exact absurd rfl hxs
    | cons a b => simp
  rw [importExpenses]
  simp only [hsplit, hidx, hcols]
  rw [if_neg hlen2]
  show importLoop requiredCols.length _ 1 (xs.map (csvRow printNum)) = _
  rw [show requiredCols.length = 6 from rfl]
  exact importLoop_all_ok 6 ⟨0, 1, 2, 3, 4, 5⟩ (csvRow printNum) xs
    (fun e he i => processLine_csvRow printNum e (hsafe e he) (hnum e he) i) 1

/-! ## Claim theorems about the round trip -/

/-- C1 (amended): for every number printer and every collection of CSV-safe
records (nonempty trimmed id and category free of separators and quotes, a
pattern-valid date, a description free of quotes and line terminators,
nonempty trimmed separator-free tags) whose amounts survive printing and
reparsing, decoding the encoded text returns the collection field-for-field
in the same order with zero row-level problems; for a nonempty collection
the result is exactly the collection with an empty problem list (an empty
collection additionally reports the file-level empty-file problem). -/
theorem csv_roundtrip (printNum : JSNum → List Char) (xs : List Expense)
    (hsafe : ∀ e ∈ xs, csvSafe e) (hnum : ∀ e ∈ xs, printNumOk printNum e) :
    (importExpenses (generateCSVString printNum xs)).expenses = xs ∧
    (∀ m ∈ (importExpenses (generateCSVString printNum xs)).errors,
      ∀ (j : Nat) (r : List Char), m ≠ lineTag j ++ r) ∧
    (xs ≠ [] → importExpenses (generateCSVString printNum xs) = ⟨xs, []⟩) := by
  cases xs with
  | nil =>
    have h0 : generateCSVString printNum [] = headerRow := rfl
    have hres : importExpenses headerRow = ⟨[], [emptyFileMsg]⟩ := by decide
    rw [h0, hres]
    refine ⟨rfl, ?_, fun h => absurd rfl h⟩
    intro m hm j r hcontra
    rw [List.mem_singleton.mp hm] at hcontra
    have := lineTag_append_head j r
    rw [← hcontra] at this
    exact absurd this (by decide)
  | cons a b =>
    have hfull := importExpenses_generateCSV printNum (a :: b) (by simp) hsafe hnum
    refine ⟨by rw [hfull], ?_, fun _ => hfull⟩
    intro m hm
    rw [hfull] at hm
    cases hm

/-- C2 (amended): a description containing a comma or a double quote is
emitted quote-wrapped with doubled inner quotes, and only such descriptions
are wrapped; decoding recovers the original literal description for safe
records whose description contains a comma but no quote — a description
containing a quote does not decode back, since the scanner consumes
quotes. -/
theorem escaping_spec :
    (∀ d : List Char,
      ((',' ∈ d) ∨ ('"' ∈ d) →
        encodeDescription d = '"' :: (escapeQuotes d ++ ['"'])) ∧
      (¬((',' ∈ d) ∨ ('"' ∈ d)) → encodeDescription d = d)) ∧
    (∀ (printNum : JSNum → List Char) (e : Expense), csvSafe e →
      printNumOk printNum e → ',' ∈ e.description →
      (importExpenses (generateCSVString printNum [e])).expenses.map
          (fun x => x.description) = [e.description]) := by
  constructor
  · intro d
    constructor
    · intro h
      rw [encodeDescription, if_pos h]
    · intro h
      rw [encodeDescription, if_neg h]
  · intro printNum e hsafe hnum _
    have h := importExpenses_generateCSV printNum [e] (by simp)
      (by intro x hx; rw [List.mem_singleton.mp hx]; exact hsafe)
      (by intro x hx; rw [List.mem_singleton.mp hx]; exact hnum)
    rw [h]
    rfl

section ConcreteRoundTrip

attribute [local semireducible] Rat.add Rat.mul Rat.inv Rat.sub

/-- C1 witness: the round-trip theorem applied to the one-record collection
whose description contains a comma, hypotheses discharged by evaluation. -/
theorem csv_roundtrip_witness :
    (importExpenses (generateCSVString printNumFive [commaDescExpense])).expenses
        = [commaDescExpense] ∧
    (∀ m ∈ (importExpenses (generateCSVString printNumFive [commaDescExpense])).errors,
      ∀ (j : Nat) (r : List Char), m ≠ lineTag j ++ r) ∧
    ([commaDescExpense] ≠ ([] : List Expense) →
      importExpenses (generateCSVString printNumFive [commaDescExpense])
        = ⟨[commaDescExpense], []⟩) :=
  csv_roundtrip printNumFive [commaDescExpense] (by decide) (by decide)

/-- C1 counterexample: a record that is well-formed per the claim (valid
4-2-2 date, finite amount whose rendering reparses, unique id) but whose
description contains a double quote does not round-trip: the decode reports
no problem and returns a record whose description lost the quote. -/
theorem csv_roundtrip_cex :
    dateOk quoteDescExpense.date = true ∧
    parseFloat (printNumFive quoteDescExpense.amount) = quoteDescExpense.amount ∧
    (importExpenses (generateCSVString printNumFive [quoteDescExpense])).errors = [] ∧
    (importExpenses (generateCSVString printNumFive [quoteDescExpense])).expenses.map
        (fun x => x.description) = [['a', 'b']] ∧
    (importExpenses (generateCSVString printNumFive [quoteDescExpense])).expenses
      ≠ [quoteDescExpense] := by
  exact ⟨by decide, by decide, by decide, by decide, by decide⟩

/-- C2 counterexample: a description containing a double quote encodes with
surrounding quotes and doubled inner quotes as claimed, but decoding the
encoded output does not restore the original literal string — the quote is
gone. -/
theorem escaping_roundtrip_cex :
    ((',' ∈ quoteDescExpense2.description) ∨ ('"' ∈ quoteDescExpense2.description)) ∧
    encodeDescription quoteDescExpense2.description = "\"x\"\"y\"".toList ∧
    (importExpenses (generateCSVString printNumFive [quoteDescExpense2])).expenses.map
        (fun x => x.description) = [['x', 'y']] ∧
    ['x', 'y'] ≠ quoteDescExpense2.description := by
  exact ⟨by decide, by decide, by decide, by decide⟩

end ConcreteRoundTrip

end SmartSpend
